import Mathlib

set_option maxRecDepth 16384

/-!
Verification of the debugging-information core of a programmable debugger
library (libdrgn).  The definitions below are shallow embeddings of the C
functions in src/libdrgn (dwarf_index.c, language_c.c, stack_trace.c):
machine integers become Nat with explicit modular reduction where overflow
matters, fallible functions return Except, in-memory arrays become lists
indexed by position, and identifier strings are lists of characters (so that
every definition evaluates inside the kernel).

Definitions whose name matches a C symbol are translated from that C
function.  Definitions prefixed with spec_ are written from the
specification's words and are used only to compare the code against the
spec where the two disagree.
-/

/-- Error kinds of the drgn error taxonomy (enum drgn_error_code) that the
embedded functions below can produce. -/
inductive DrgnErrorKind where
  | invalidArgument
  | outOfBounds
  | elfFormat
  | dwarfFormat
  deriving DecidableEq, Repr

/-- Identifier strings are modelled as lists of characters. -/
abbrev Str := List Char

/-- Results of fallible operations are compared in concrete evaluations,
so Except needs decidable equality. -/
instance {e a : Type} [DecidableEq e] [DecidableEq a] :
    DecidableEq (Except e a) := fun x y =>
  match x, y with
  | .ok v, .ok w => if h : v = w then .isTrue (by rw [h]) else
      .isFalse (by intro hc; cases hc; exact h rfl)
  | .error v, .error w => if h : v = w then .isTrue (by rw [h]) else
      .isFalse (by intro hc; cases hc; exact h rfl)
  | .ok _, .error _ => .isFalse (by intro hc; cases hc)
  | .error _, .ok _ => .isFalse (by intro hc; cases hc)

/-! ### C2: c_token_to_u64 (language_c.c:1484-1541)

A number token is converted to an unsigned 64-bit value.  The C code keeps
the accumulator in a uint64_t and guards each step with
x > UINT64_MAX / base and x > UINT64_MAX - digit, so the accumulator
never exceeds UINT64_MAX and Nat models it exactly. -/

/-- UINT64_MAX. -/
def U64_MAX : Nat := 2 ^ 64 - 1

/-- Hexadecimal digit value as computed by c_token_to_u64: digit = c - '0'
for decimal digits, digit = c - 'a' for 'a'..'f', and digit = c - 'A'
otherwise (the lexer guarantees the remaining case is 'A'..'F').  Note the
code does not add 10 for the alphabetic digits. -/
def c_hex_digit (c : Char) : Nat :=
  if '0' ≤ c ∧ c ≤ '9' then c.toNat - '0'.toNat
  else if 'a' ≤ c ∧ c ≤ 'f' then c.toNat - 'a'.toNat
  else c.toNat - 'A'.toNat

/-- Decimal/octal digit value as computed by c_token_to_u64: c - '0'. -/
def c_dec_digit (c : Char) : Nat := c.toNat - '0'.toNat

/-- One conversion loop of c_token_to_u64: accumulate digits in the given
base, failing with the invalid-argument kind when either the multiplication
or the addition would exceed UINT64_MAX. -/
def c_token_loop (base : Nat) (digit : Char → Nat) :
    Nat → List Char → Except DrgnErrorKind Nat
  | x, [] => .ok x
  | x, c :: rest =>
    let d := digit c
    if x > U64_MAX / base then .error .invalidArgument
    else if x * base > U64_MAX - d then .error .invalidArgument
    else c_token_loop base digit (x * base + d) rest

/-- c_token_to_u64: convert a number token to a 64-bit value.  A token of
length > 2 starting with "0x" is read in base 16, a token starting with
'0' in base 8, and anything else in base 10. -/
def c_token_to_u64 (tok : Str) : Except DrgnErrorKind Nat :=
  if tok.length > 2 ∧ tok.get? 0 = some '0' ∧ tok.get? 1 = some 'x' then
    c_token_loop 16 c_hex_digit 0 (tok.drop 2)
  else if tok.get? 0 = some '0' then
    c_token_loop 8 c_dec_digit 0 (tok.drop 1)
  else
    c_token_loop 10 c_dec_digit 0 tok

/-- Modelled from the spec: the integer value of a numeric token, read in
its base with the hexadecimal digits a..f and A..F contributing 10..15;
none when the value does not fit in an unsigned 64-bit integer. -/
def spec_token_value (tok : Str) : Option Nat :=
  let digits :=
    if tok.length > 2 ∧ tok.get? 0 = some '0' ∧ tok.get? 1 = some 'x' then
      some (16, (tok.drop 2).map (fun c =>
        if '0' ≤ c ∧ c ≤ '9' then c.toNat - '0'.toNat
        else if 'a' ≤ c ∧ c ≤ 'f' then c.toNat - 'a'.toNat + 10
        else c.toNat - 'A'.toNat + 10))
    else if tok.get? 0 = some '0' then
      some (8, (tok.drop 1).map (fun c => c.toNat - '0'.toNat))
    else
      some (10, tok.map (fun c => c.toNat - '0'.toNat))
  match digits with
  | some (base, ds) =>
    let v := ds.foldl (fun x d => x * base + d) 0
    if v ≤ U64_MAX then some v else none
  | none => none

/-! ### C5: identifier resolution in c_parse_specifier_qualifier_list
(language_c.c:1890-1930)

When the specifier FSM is still in its initial state and no struct/union/
enum tag token was seen, a lone identifier is resolved.  The C code
compares with strncmp(identifier, "size_t", strlen("size_t")): identifier
points into the expression string at the start of a maximal-munch
identifier token, so the comparison succeeds exactly when the token starts
with the literal (the token cannot be a strict prefix of the literal,
because then a non-identifier character would terminate both the token and
the comparison with a mismatch). -/

/-- The outcome of resolving a lone identifier in a specifier-qualifier
list: a hard-coded canonical primitive, or a typedef lookup by name. -/
inductive CIdentResolution where
  | primSizeT
  | primPtrdiffT
  | typedefLookup (name : Str)
  deriving DecidableEq, Repr

/-- The identifier branch of c_parse_specifier_qualifier_list:
strncmp against "size_t" and "ptrdiff_t" (a prefix comparison of the
token), falling back to a typedef lookup by the full identifier. -/
def c_resolve_type_identifier (identifier : Str) : CIdentResolution :=
  if ("size_t".toList).isPrefixOf identifier then .primSizeT
  else if ("ptrdiff_t".toList).isPrefixOf identifier then .primPtrdiffT
  else .typedefLookup identifier

/-- Modelled from the spec: exactly the identifiers "size_t" and
"ptrdiff_t" map to canonical primitives; every other identifier is
resolved as a typedef lookup by its full name. -/
def spec_resolve_type_identifier (identifier : Str) : CIdentResolution :=
  if identifier = "size_t".toList then .primSizeT
  else if identifier = "ptrdiff_t".toList then .primPtrdiffT
  else .typedefLookup identifier

/-! ### C8: c_pretty_print_character (language_c.c:859-887) -/

/-- Lowercase hexadecimal digit character, as produced by the %x printf
conversion for a value below 16. -/
def hex_char (n : Nat) : Char :=
  if n < 10 then Char.ofNat ('0'.toNat + n) else Char.ofNat ('a'.toNat + (n - 10))

/-- c_pretty_print_character: the escape sequence emitted for one byte of
a character or string value.  The byte c is the value of the C unsigned
char argument (0 ≤ c < 256).  The default case uses the printf conversion
"\x%02x", which for a byte is a backslash, an x and two lowercase
hexadecimal digits. -/
def c_pretty_print_character (c : Nat) : List Char :=
  if c = 7 then ['\\', 'a']
  else if c = 8 then ['\\', 'b']
  else if c = 9 then ['\\', 't']
  else if c = 10 then ['\\', 'n']
  else if c = 11 then ['\\', 'v']
  else if c = 12 then ['\\', 'f']
  else if c = 13 then ['\\', 'r']
  else if c = 34 then ['\\', '"']
  else if c = 92 then ['\\', '\\']
  else if c ≤ 0x1f ∨ c ≥ 0x7f then ['\\', 'x', hex_char (c / 16), hex_char (c % 16)]
  else [Char.ofNat c]

/-! ### C10: drgn_stack_frame_parameter_by_index and
drgn_stack_frame_variable_by_index (stack_trace.c:555-581, 676-702)

The frame's symbols have already been parsed into a vector
(drgn_stack_frame_parse_parameters / _variables succeeded); the model
receives that vector directly.  drgn_frame_state_parameters returns the
vector's data pointer and stores its size in max.  The C code then checks
index > max and otherwise reads symbols[index]; the model returns
Except.ok (symbols.get? index), so an access one past the end of the
vector — which in C reads out of bounds — appears as Except.ok none. -/

/-- A parsed frame symbol (struct drgn_frame_symbol); only the name is
relevant here. -/
structure FrameSym where
  name : Str
  deriving DecidableEq, Repr

/-- drgn_stack_frame_parameter_by_index, after the parameter vector has
been parsed: bounds check index > max, then the array access. -/
def drgn_stack_frame_parameter_by_index (parameters : List FrameSym)
    (index : Nat) : Except DrgnErrorKind (Option FrameSym) :=
  let max := parameters.length
  if index > max then .error .outOfBounds
  else .ok (parameters.get? index)

/-- drgn_stack_frame_variable_by_index, after the variable vector has been
parsed: identical structure to the parameter accessor. -/
def drgn_stack_frame_variable_by_index (vars : List FrameSym)
    (index : Nat) : Except DrgnErrorKind (Option FrameSym) :=
  let max := vars.length
  if index > max then .error .outOfBounds
  else .ok (vars.get? index)

/-! ### C9: drgn_get_stack_trace (stack_trace.c:966-1057)

The program's flag word is a bitmask; DRGN_PROGRAM_IS_LINUX_KERNEL is bit
0 (drgn.h:857) and DRGN_PROGRAM_IS_LIVE is the next flag bit (it is
declared in program.h, which is outside the extracted sources; the value
is taken as bit 1, and only its distinctness from bit 0 matters below).
The function returns an invalid-argument error before any unwinder state
is attached when the program has no platform, or when the masked flags
equal DRGN_PROGRAM_IS_LIVE (live but not the Linux kernel).  Everything
from drgn_program_get_dwfl onwards is collapsed into one outcome value. -/

/-- DRGN_PROGRAM_IS_LINUX_KERNEL flag bit. -/
def DRGN_PROGRAM_IS_LINUX_KERNEL : Nat := 1

/-- DRGN_PROGRAM_IS_LIVE flag bit. -/
def DRGN_PROGRAM_IS_LIVE : Nat := 2

/-- The program state consulted by drgn_get_stack_trace before it touches
the unwinder. -/
structure ProgramState where
  hasPlatform : Bool
  isLinuxKernel : Bool
  isLive : Bool
  deriving DecidableEq, Repr

/-- The program's flag bitmask (prog->flags). -/
def ProgramState.flags (prog : ProgramState) : Nat :=
  (if prog.isLinuxKernel then DRGN_PROGRAM_IS_LINUX_KERNEL else 0) |||
  (if prog.isLive then DRGN_PROGRAM_IS_LIVE else 0)

/-- Outcome of drgn_get_stack_trace up to the point where unwinder state
would be attached: either an early error (returned before
drgn_program_get_dwfl and dwfl_attach_state run), or control proceeds to
attach the unwinder. -/
inductive StackTraceOutcome where
  | failedBeforeAttach (kind : DrgnErrorKind)
  | proceedsToAttach (tid : Nat)
  deriving DecidableEq, Repr

/-- drgn_get_stack_trace: the platform check, then the live-process check
(prog->flags & (IS_LINUX_KERNEL | IS_LIVE)) == IS_LIVE, both returning
invalid-argument before any unwinder state is attached. -/
def drgn_get_stack_trace (prog : ProgramState) (tid : Nat) : StackTraceOutcome :=
  if prog.hasPlatform = false then .failedBeforeAttach .invalidArgument
  else if prog.flags &&& (DRGN_PROGRAM_IS_LINUX_KERNEL ||| DRGN_PROGRAM_IS_LIVE) =
      DRGN_PROGRAM_IS_LIVE then
    .failedBeforeAttach .invalidArgument
  else .proceedsToAttach tid

/-- drgn_program_stack_trace forwards to drgn_get_stack_trace with a null
object. -/
def drgn_program_stack_trace (prog : ProgramState) (tid : Nat) : StackTraceOutcome :=
  drgn_get_stack_trace prog tid

/-- The value-object argument of drgn_object_stack_trace: either an object
of integer underlying type carrying its 64-bit value, or an object of any
other type.  (Reading the integer value of a value object cannot fault;
the external memory reader is out of scope.) -/
inductive StackTraceObject where
  | intObject (uvalue : Nat)
  | otherObject
  deriving DecidableEq, Repr

/-- drgn_object_stack_trace: an integer object's value is read and used as
the thread id (truncated to the uint32_t tid parameter), any other object
is passed through with tid 0. -/
def drgn_object_stack_trace (prog : ProgramState) (obj : StackTraceObject) :
    StackTraceOutcome :=
  match obj with
  | .intObject v => drgn_get_stack_trace prog (v % 2 ^ 32)
  | .otherObject => drgn_get_stack_trace prog 0

/-! ### C4: apply_relocation (dwarf_index.c:561-612)

A debug section is a byte array (Elf_Data), the symbol table an array of
Elf64_Sym (num_syms = d_size / sizeof(Elf64_Sym) becomes the list length),
and a relocation entry carries r_offset, the symbol index and type split
out of r_info, and the signed addend.  The store *(uint32_t *)p and
*(uint64_t *)p on the little-endian x86_64 target writes the low 4 or 8
bytes of the value least-significant byte first.  The guard
r_offset > SIZE_MAX - sizeof(...) only prevents wrap-around of the C
addition and is subsumed by the Nat comparison r_offset + width > size. -/

/-- R_X86_64_NONE relocation type. -/
def R_X86_64_NONE : Nat := 0

/-- R_X86_64_64 relocation type. -/
def R_X86_64_64 : Nat := 1

/-- R_X86_64_32 relocation type. -/
def R_X86_64_32 : Nat := 10

/-- A symbol table entry; only st_value is read by apply_relocation. -/
structure Elf64_Sym where
  st_value : Nat
  deriving DecidableEq, Repr

/-- One relocation entry, with r_sym and r_type already split out of
r_info (r_sym = r_info >> 32, r_type = r_info & 0xffffffff). -/
structure Elf64_Rela where
  r_offset : Nat
  r_sym : Nat
  r_type : Nat
  r_addend : Int
  deriving DecidableEq, Repr

/-- Write the low w bytes of val into the byte list at position off,
least-significant byte first (a little-endian store). -/
def write_le_bytes (bytes : List Nat) (off : Nat) : Nat → Nat → List Nat
  | 0, _ => bytes
  | w + 1, val => write_le_bytes (bytes.set off (val % 256)) (off + 1) w (val / 256)

/-- The 64-bit value stored by a relocation: symbol value plus signed
addend, wrapped to 64 bits. -/
def reloc_value (sym : Elf64_Sym) (addend : Int) : Nat :=
  (((sym.st_value : Int) + addend) % (2 ^ 64 : Int)).toNat

/-- apply_relocation: apply one relocation entry to a debug section.
R_X86_64_NONE does nothing; R_X86_64_32 and R_X86_64_64 check the symbol
index against the symbol table and the write extent against the section
size, then store the 32-bit or 64-bit value; any other type is rejected. -/
def apply_relocation (sect : List Nat) (symtab : List Elf64_Sym)
    (reloc : Elf64_Rela) : Except DrgnErrorKind (List Nat) :=
  if reloc.r_type = R_X86_64_NONE then
    .ok sect
  else if reloc.r_type = R_X86_64_32 then
    match symtab[reloc.r_sym]? with
    | none => .error .elfFormat
    | some sym =>
      if reloc.r_offset + 4 > sect.length then .error .elfFormat
      else .ok (write_le_bytes sect reloc.r_offset 4
                 (reloc_value sym reloc.r_addend % 2 ^ 32))
  else if reloc.r_type = R_X86_64_64 then
    match symtab[reloc.r_sym]? with
    | none => .error .elfFormat
    | some sym =>
      if reloc.r_offset + 8 > sect.length then .error .elfFormat
      else .ok (write_le_bytes sect reloc.r_offset 8
                 (reloc_value sym reloc.r_addend))
  else
    .error .elfFormat

/-! ### C6: c_common_real_type and c_can_represent_all_values
(language_c.c:2420-2741)

Type descriptors carry the fields these functions read: the kind, the
primitive tag (none models DRGN_NOT_PRIMITIVE_TYPE), the byte size and
the signedness.  An enum type carries its compatible integer type (none
when incomplete).  An operand (struct drgn_object_type) is a type
together with its underlying (typedef-stripped) type and a bit-field
size; since the functions below only read the underlying type and the
bit-field size, and always place the descriptor they produce in both
fields, the operand is modelled as underlying type plus bit-field size.
The type index's table of primitive type descriptors is instantiated for
the x86_64 LP64 target the relocation code already fixes. -/

/-- enum drgn_primitive_type, in declaration order (drgn.h:285-306); the
numeric order matters for the tie-break in the float branch and for the
primitive + 1 step that forms the corresponding unsigned type. -/
inductive CPrim where
  | void | char | schar | uchar | short | ushort | int | uint
  | long | ulong | llong | ullong | boolP | floatP | doubleP | longDoubleP
  | sizeT | ptrdiffT
  deriving DecidableEq, Repr

/-- Numeric value of a primitive tag (its position in the C enum). -/
def CPrim.toNat : CPrim → Nat
  | .void => 0 | .char => 1 | .schar => 2 | .uchar => 3
  | .short => 4 | .ushort => 5 | .int => 6 | .uint => 7
  | .long => 8 | .ulong => 9 | .llong => 10 | .ullong => 11
  | .boolP => 12 | .floatP => 13 | .doubleP => 14 | .longDoubleP => 15
  | .sizeT => 16 | .ptrdiffT => 17

/-- DRGN_NOT_PRIMITIVE_TYPE, the value drgn_type_primitive returns for a
type with no primitive tag (numerically DRGN_PRIMITIVE_TYPE_NUM = 18). -/
def NOT_PRIMITIVE : Nat := 18

/-- Numeric value of an optional primitive tag. -/
def primNat : Option CPrim → Nat
  | none => NOT_PRIMITIVE
  | some p => p.toNat

/-- The primitive that follows p in the C enum; used only as
primitive_types[primitive + 1], which for a standard signed integer type
yields the corresponding unsigned type. -/
def CPrim.succPrim : CPrim → CPrim
  | .char => .schar | .schar => .uchar | .uchar => .short
  | .short => .ushort | .ushort => .int | .int => .uint
  | .uint => .long | .long => .ulong | .ulong => .llong
  | .llong => .ullong | .ullong => .boolP | .boolP => .floatP
  | .floatP => .doubleP | .doubleP => .longDoubleP
  | .longDoubleP => .sizeT | .sizeT => .ptrdiffT
  | .void => .char | .ptrdiffT => .void

/-- The type kinds read by the conversion functions (enum drgn_type_kind,
restricted to the kinds these functions dispatch on). -/
inductive CTypeKind where
  | intK | boolK | floatK | enumK | otherK
  deriving DecidableEq, Repr

/-- The payload of a non-enum type descriptor: the fields drgn_type_kind,
drgn_type_primitive, drgn_type_size and drgn_type_is_signed. -/
structure CTypeBase where
  kind : CTypeKind
  primitive : Option CPrim
  size : Nat
  isSigned : Bool
  deriving DecidableEq, Repr

/-- A type descriptor: drgn_type_kind, drgn_type_primitive,
drgn_type_size, drgn_type_is_signed, and for an enum its compatible
integer type (drgn_type_type; none models an incomplete enum).  A
compatible type of an enum is itself a plain integer type, so it is a
CTypeBase. -/
structure CType where
  kind : CTypeKind
  primitive : Option CPrim
  size : Nat
  isSigned : Bool
  enumCompat : Option CTypeBase
  deriving DecidableEq, Repr

/-- Promote a plain descriptor to a CType. -/
def CTypeBase.toCType (b : CTypeBase) : CType :=
  ⟨b.kind, b.primitive, b.size, b.isSigned, none⟩

/-- An operand of the usual arithmetic conversions (struct
drgn_object_type): its underlying type and bit-field size (0 when the
operand is not a bit field). -/
structure CObjectType where
  underlying : CType
  bitFieldSize : Nat
  deriving DecidableEq, Repr

/-- Integer type descriptor helper for the primitive table. -/
def mkIntType (p : CPrim) (size : Nat) (signed : Bool) : CType :=
  ⟨.intK, some p, size, signed, none⟩

/-- tindex->primitive_types for the x86_64 LP64 target: the canonical
descriptor of each primitive type. -/
def primitive_types : CPrim → CType
  | .void => ⟨.otherK, some .void, 0, false, none⟩
  | .char => mkIntType .char 1 true
  | .schar => mkIntType .schar 1 true
  | .uchar => mkIntType .uchar 1 false
  | .short => mkIntType .short 2 true
  | .ushort => mkIntType .ushort 2 false
  | .int => mkIntType .int 4 true
  | .uint => mkIntType .uint 4 false
  | .long => mkIntType .long 8 true
  | .ulong => mkIntType .ulong 8 false
  | .llong => mkIntType .llong 8 true
  | .ullong => mkIntType .ullong 8 false
  | .boolP => ⟨.boolK, some .boolP, 1, false, none⟩
  | .floatP => ⟨.floatK, some .floatP, 4, true, none⟩
  | .doubleP => ⟨.floatK, some .doubleP, 8, true, none⟩
  | .longDoubleP => ⟨.floatK, some .longDoubleP, 16, true, none⟩
  | .sizeT => mkIntType .sizeT 8 false
  | .ptrdiffT => mkIntType .ptrdiffT 8 true

/-- c_integer_conversion_rank (language_c.c:2420-2433); the table is only
indexed with standard integer primitives. -/
def c_integer_conversion_rank (p : CPrim) : Nat :=
  match p with
  | .boolP => 0
  | .char => 1 | .schar => 1 | .uchar => 1
  | .short => 2 | .ushort => 2
  | .int => 3 | .uint => 3
  | .long => 4 | .ulong => 4
  | .llong => 5 | .ullong => 5
  | _ => 0

/-- c_can_represent_all_values (language_c.c:2435-2466): whether type1
(with bit-field size 1) can represent every value of type2 (with
bit-field size 2), comparing bit widths and signedness; a bool has width
1 and is unsigned. -/
def c_can_represent_all_values (type1 : CType) (bitFieldSize1 : Nat)
    (type2 : CType) (bitFieldSize2 : Nat) : Bool :=
  let width1 := if type1.kind = .boolK then 1
                else if bitFieldSize1 ≠ 0 then bitFieldSize1 else 8 * type1.size
  let isSigned1 := if type1.kind = .boolK then false else type1.isSigned
  let width2 := if type2.kind = .boolK then 1
                else if bitFieldSize2 ≠ 0 then bitFieldSize2 else 8 * type2.size
  let isSigned2 := if type2.kind = .boolK then false else type2.isSigned
  if isSigned1 = isSigned2 then width1 ≥ width2
  else if isSigned1 ∧ ¬isSigned2 then width1 > width2
  else false

/-- c_integer_promotions (language_c.c:2468-2548): convert an enum to its
compatible type (failing on an incomplete enum), then promote any
non-primitive integer type or bit field that int or unsigned int can
fully represent, and promote standard types of rank at most the rank of
int to int or unsigned int. -/
def c_integer_promotions (t : CObjectType) : Except DrgnErrorKind CObjectType := do
  let t ←
    match t.underlying.kind with
    | .enumK =>
      match t.underlying.enumCompat with
      | none => .error .invalidArgument
      | some compat => pure { t with underlying := compat.toCType }
    | .intK => pure t
    | .boolK => pure t
    | _ => return t
  let primitive := t.underlying.primitive
  if primitive = none ∨ t.bitFieldSize ≠ 0 then
    if c_can_represent_all_values (primitive_types .int) 0 t.underlying
        t.bitFieldSize then
      return { underlying := primitive_types .int, bitFieldSize := 0 }
    else if c_can_represent_all_values (primitive_types .uint) 0 t.underlying
        t.bitFieldSize then
      return { underlying := primitive_types .uint, bitFieldSize := 0 }
    else
      return t
  else
    match primitive with
    | none => return t
    | some p =>
      if p = .int ∨ p = .uint ∨
          c_integer_conversion_rank p > c_integer_conversion_rank .int then
        return t
      else if c_can_represent_all_values (primitive_types .int) 0
          t.underlying 0 then
        return { underlying := primitive_types .int, bitFieldSize := 0 }
      else
        return { underlying := primitive_types .uint, bitFieldSize := 0 }

/-- c_common_real_type (language_c.c:2550-2741): the common real type of
two operands.  Floating operands win by size with ties broken by the
numeric primitive order; otherwise both operands are promoted, bit fields
are resolved by width with ties to the unsigned operand, and the integer
rules run on the conversion ranks, ending in the
primitive_types[primitive + 1] step that produces the unsigned type
corresponding to a signed operand. -/
def c_common_real_type (type1 type2 : CObjectType) :
    Except DrgnErrorKind CObjectType := do
  let isFloat1 := type1.underlying.kind = .floatK
  let isFloat2 := type2.underlying.kind = .floatK
  if isFloat1 ∧ isFloat2 then
    let size1 := type1.underlying.size
    let size2 := type2.underlying.size
    if size1 > size2 then return type1
    else if size2 > size1 then return type2
    else if primNat type1.underlying.primitive >
        primNat type2.underlying.primitive then return type1
    else return type2
  else if isFloat1 then return type1
  else if isFloat2 then return type2
  else
  let type1 ← c_integer_promotions type1
  let type2 ← c_integer_promotions type2
  let isSigned1 := type1.underlying.isSigned
  let isSigned2 := type2.underlying.isSigned
  if type1.bitFieldSize ≠ 0 ∨ type2.bitFieldSize ≠ 0 then
    let width1 := if type1.bitFieldSize ≠ 0 then type1.bitFieldSize
                  else 8 * type1.underlying.size
    let width2 := if type2.bitFieldSize ≠ 0 then type2.bitFieldSize
                  else 8 * type2.underlying.size
    if width1 < width2 ∨ (width1 = width2 ∧ (¬isSigned2 ∨ isSigned1)) then
      return type2
    else
      return type1
  else
  let primitive1 := type1.underlying.primitive
  let primitive2 := type2.underlying.primitive
  let rank_cmp : Int ←
    match primitive1, primitive2 with
    | some p1, some p2 =>
      if p1 = p2 then return type2
      else pure ((c_integer_conversion_rank p1 : Int) -
                 (c_integer_conversion_rank p2 : Int))
    | _, _ =>
      let size1 := type1.underlying.size
      let size2 := type2.underlying.size
      if size1 = size2 ∧ primitive1 = none ∧ primitive2 = none then pure 0
      else if (size1 = size2 ∧ primitive2 ≠ none) ∨ size1 < size2 then pure (-1)
      else pure 1
  if isSigned1 = isSigned2 then
    if rank_cmp > 0 then return type1 else return type2
  else if ¬isSigned1 ∧ rank_cmp ≥ 0 then return type1
  else if ¬isSigned2 ∧ rank_cmp ≤ 0 then return type2
  else if isSigned1 = true ∧
      c_can_represent_all_values type1.underlying 0 type2.underlying 0 then
    return type1
  else if isSigned2 = true ∧
      c_can_represent_all_values type2.underlying 0 type1.underlying 0 then
    return type2
  else if isSigned1 then
    match primitive1 with
    | none => .error .invalidArgument
    | some p1 => return { underlying := primitive_types p1.succPrim,
                          bitFieldSize := 0 }
  else
    match primitive2 with
    | none => .error .invalidArgument
    | some p2 => return { underlying := primitive_types p2.succPrim,
                          bitFieldSize := 0 }

/-! ### C1 and C3: the DWARF index shard (dwarf_index.c)

A shard owns a growable array of entries and a hash map from name to the
index of the head entry of that name's chain (struct dwarf_index_shard).
The backing array is modelled as a list together with num_entries: slots
at positions at or beyond num_entries are allocated capacity whose stale
contents remain readable, exactly as in the C array after a truncation.
The chain terminator SIZE_MAX is modelled as none.  Hashing and shard
selection are irrelevant to the claims (all names of a scenario may land
in one shard, and shards are independent), so the map is an association
list keyed by the name itself, and the per-shard mutex disappears because
the embedded operations are the complete critical sections. -/

/-- An index entry (struct die_entry): tag, source-file-name hash, the
owning file (identified by a number), the DIE offset, and the chain link
to the next entry with the same name. -/
structure DieEntry where
  tag : Nat
  file_name_hash : Nat
  file : Nat
  offset : Nat
  next : Option Nat
  deriving DecidableEq, Repr

/-- A shard: the backing entry array, the number of live entries, and the
name map from key to head entry index. -/
structure Shard where
  entries : List DieEntry
  num_entries : Nat
  map : List (Str × Nat)
  deriving DecidableEq, Repr

/-- A shard with no entries. -/
def emptyShard : Shard := ⟨[], 0, []⟩

/-- The definition data an entry carries, without the chain link: tag,
file-name hash, owning file and DIE offset. -/
def DieEntry.data (e : DieEntry) : Nat × Nat × Nat × Nat :=
  (e.tag, e.file_name_hash, e.file, e.offset)

/-- die_map_search: look a name up in the shard's map. -/
def die_map_search (m : List (Str × Nat)) (k : Str) : Option Nat :=
  match m.find? (fun p => p.1 == k) with
  | none => none
  | some p => some p.2

/-- append_die_entry (dwarf_index.c:1270-1292): write a fresh entry (with
chain terminator next = none) at position num_entries of the backing
array — reusing a stale capacity slot if one is there, growing the array
otherwise — and bump num_entries.  Allocation failure is not modelled. -/
def append_die_entry (sh : Shard) (tag hash file offset : Nat) : Shard :=
  let e : DieEntry := ⟨tag, hash, file, offset, none⟩
  { sh with
    entries := if sh.num_entries < sh.entries.length then
                 sh.entries.set sh.num_entries e
               else sh.entries ++ [e],
    num_entries := sh.num_entries + 1 }

/-- The chain walk inside index_die: starting from entry index i, stop
with some none when an entry with the given tag and hash is found, and
with some (some t) when the tail entry (chain terminator) is reached at
index t.  The C loop has no fuel; the fuel parameter only makes the model
total, and none (fuel exhausted or a dangling index) is never produced on
the well-formed shards the theorems consider. -/
def find_in_chain (entries : List DieEntry) (tag hash : Nat) :
    Nat → Nat → Option (Option Nat)
  | 0, _ => none
  | fuel + 1, i =>
    match entries[i]? with
    | none => none
    | some e =>
      if e.tag = tag ∧ e.file_name_hash = hash then some none
      else match e.next with
        | none => some (some i)
        | some j => find_in_chain entries tag hash fuel j

/-- index_die (dwarf_index.c:1294-1350): insert one definition.  If the
name is not in the map, append an entry and map the name to it.  If it
is, walk the chain; an entry with the same tag and file-name hash makes
the call a no-op, otherwise a new entry is appended and the old tail's
next is pointed at it.  The result is none only if the chain walk gets
stuck, which cannot happen on a well-formed shard. -/
def index_die (sh : Shard) (name : Str) (tag hash file offset : Nat) :
    Option Shard :=
  match die_map_search sh.map name with
  | none =>
    let sh2 := append_die_entry sh tag hash file offset
    some { sh2 with map := (name, sh2.num_entries - 1) :: sh2.map }
  | some head =>
    match find_in_chain sh.entries tag hash (sh.num_entries + 1) head with
    | none => none
    | some none => some sh
    | some (some t) =>
      let sh2 := append_die_entry sh tag hash file offset
      match sh2.entries[t]? with
      | none => none
      | some tailE =>
        some { sh2 with
               entries := sh2.entries.set t
                 { tailE with next := some (sh2.num_entries - 1) } }

/-- The entries visited by drgn_dwarf_index_iterator_next
(dwarf_index.c:1876-1891) when following a chain: the iterator reads
shard->entries[index] from the backing array and follows next without
consulting num_entries.  Fuel as in find_in_chain. -/
def chain_list (entries : List DieEntry) : Nat → Nat → List DieEntry
  | 0, _ => []
  | fuel + 1, i =>
    match entries[i]? with
    | none => []
    | some e =>
      e :: (match e.next with
            | none => []
            | some j => chain_list entries fuel j)

/-- The chain a named lookup traverses
(drgn_dwarf_index_iterator_init + _next with a name and no tag filter):
the map gives the head index, then the iterator follows the chain through
the backing array. -/
def lookup_chain (sh : Shard) (name : Str) : List DieEntry :=
  match die_map_search sh.map name with
  | none => []
  | some head => chain_list sh.entries (sh.entries.length + 1) head

/-- The truncation loop of unindex_files (dwarf_index.c:1708-1716): pop
entries from the tail of the backing array while the last live entry
belongs to a failed file; returns the new num_entries. -/
def truncate_failed (entries : List DieEntry) (failed : List Nat) : Nat → Nat
  | 0 => 0
  | n + 1 =>
    match entries[n]? with
    | some e => if e.file ∈ failed then truncate_failed entries failed n
                else n + 1
    | none => n + 1

/-- unindex_files (dwarf_index.c:1685-1731), restricted to one shard: the
files of the failed update are marked failed, every shard's entry array
is truncated to drop the tail of entries referencing failed files, and
map keys whose head index fell beyond the new num_entries are deleted.
Truncation does not touch the stale slots above the new num_entries, nor
the next links of surviving entries. -/
def unindex_files (failed : List Nat) (sh : Shard) : Shard :=
  let n := truncate_failed sh.entries failed sh.num_entries
  { sh with
    num_entries := n,
    map := sh.map.filter (fun p => p.2 < n) }

/-- Well-formedness of a shard, written as an executable check:
num_entries fits the backing array, every map head points below
num_entries, and every live entry's chain link points strictly forward
and below num_entries (index_die always links an existing entry to the
freshly appended, strictly larger index, so every reachable shard
satisfies this). -/
def shard_wf (sh : Shard) : Bool :=
  decide (sh.num_entries ≤ sh.entries.length) &&
  sh.map.all (fun p => p.2 < sh.num_entries) &&
  (List.range sh.num_entries).all (fun i =>
    match sh.entries[i]? with
    | none => false
    | some e =>
      match e.next with
      | none => true
      | some j => decide (i < j ∧ j < sh.num_entries))

/-! ### C7: the CU walker index_cu (dwarf_index.c:1538-1654)

The walker does a depth-tracked pass over the DIEs of a compile unit.
The byte stream it reads is the pre-order serialization of the DIE tree
with a null entry closing every chain of children, so the model walks a
tree: a DIE carries its tag (already truncated by the abbreviation
compiler; zero when the DIE's kind is not indexed), optional name,
declaration flag, whether a DW_AT_sibling pointer is present, and its
section offset.  A DIE has children exactly when its children list is
nonempty.  When a DIE has children and a sibling pointer the walker jumps
to the sibling and never visits the subtree; without a sibling pointer it
descends (depth + 1).  The null entry that closes a chain of children
decrements the depth and, when the depth comes back to 1, clears the
recorded enumeration offset.  DW_AT_specification borrowing only fills a
missing name or decl-file from the referenced DIE and is immaterial here:
a node's name field already holds the name under which it would be
indexed.  The file-name hash and file arguments of index_die do not
matter for this claim, so a recorded call keeps name, tag and offset. -/

/-- The attributes of one DIE as the walker sees them (struct die,
dwarf_index.c:1352-1359, with flags split out). -/
structure DieInfo where
  tag : Nat
  name : Option Str
  decl : Bool
  sibling : Bool
  offset : Nat
  deriving DecidableEq, Repr

/-- A DIE together with its children. -/
inductive DieTree where
  | mk (info : DieInfo) (children : List DieTree)

/-- The info part of a DIE tree node. -/
def DieTree.info : DieTree → DieInfo
  | .mk i _ => i

/-- The children of a DIE tree node. -/
def DieTree.children : DieTree → List DieTree
  | .mk _ c => c

/-- One recorded index_die call: name, tag and the DIE offset passed. -/
structure ICall where
  name : Str
  tag : Nat
  offset : Nat
  deriving DecidableEq, Repr

/-- DW_TAG_enumeration_type. -/
def DW_TAG_enumeration_type : Nat := 0x04

/-- DW_TAG_compile_unit. -/
def DW_TAG_compile_unit : Nat := 0x11

/-- DW_TAG_enumerator. -/
def DW_TAG_enumerator : Nat := 0x28

/-- The per-DIE step of index_cu (dwarf_index.c:1583-1635): given the
depth and the recorded enumeration offset, produce the updated
enumeration offset and the index_die calls (at most one) this DIE emits.
A compile-unit DIE only feeds the file-name table; a zero tag or a
declaration DIE is skipped; a depth-1 enumeration type records its
offset; a depth-2 enumerator with a recorded enumeration offset is
indexed under that offset; every other DIE is indexed only at depth 1,
and only when it has a name. -/
def process_die (depth enumOff : Nat) (info : DieInfo) : Nat × List ICall :=
  if info.tag = DW_TAG_compile_unit then (enumOff, [])
  else if info.tag ≠ 0 ∧ info.decl = false then
    if depth = 1 ∧ info.tag = DW_TAG_enumeration_type then
      (info.offset,
       match info.name with
       | some n => [⟨n, info.tag, info.offset⟩]
       | none => [])
    else if depth = 2 ∧ info.tag = DW_TAG_enumerator ∧ enumOff ≠ 0 then
      (enumOff,
       match info.name with
       | some n => [⟨n, info.tag, enumOff⟩]
       | none => [])
    else if depth ≠ 1 then (enumOff, [])
    else
      (enumOff,
       match info.name with
       | some n => [⟨n, info.tag, info.offset⟩]
       | none => [])
  else (enumOff, [])

/-- The walk of index_cu over a chain of sibling DIEs at a given depth,
threading the recorded enumeration offset and collecting the index_die
calls in order.  Descending into children raises the depth by one; the
null DIE closing the children brings it back and clears the enumeration
offset when the walker returns to depth 1. -/
def walk_dies : Nat → Nat → List DieTree → Nat × List ICall
  | _, enumOff, [] => (enumOff, [])
  | depth, enumOff, DieTree.mk info children :: rest =>
    let p := process_die depth enumOff info
    if children.isEmpty = false ∧ info.sibling = false then
      let c := walk_dies (depth + 1) p.1 children
      let eoA := if depth = 1 then 0 else c.1
      let r := walk_dies depth eoA rest
      (r.1, p.2 ++ c.2 ++ r.2)
    else
      let r := walk_dies depth p.1 rest
      (r.1, p.2 ++ r.2)
  termination_by _d _eo l => sizeOf l
  decreasing_by all_goals simp_wf <;> omega

/-- index_cu on a compile unit whose root DIE has the given children: the
root is processed at depth 0 (only its stmt_list matters there), and its
children are walked at depth 1 with no recorded enumeration offset.  The
result is the list of index_die calls the walk performs. -/
def index_cu_calls (roots : List DieTree) : List ICall :=
  (walk_dies 1 0 roots).2

/-- Well-formedness of a DIE forest under a parent with the given tag and
declaration flag, written as an executable check: an enumerator DIE
appears only as the child of a non-declaration enumeration type, and
every enumeration type has a nonzero section offset (offset 0 is the CU
header, so no DIE lives there). -/
def wf_die_forest (parentTag : Nat) (parentDecl : Bool) :
    List DieTree → Bool
  | [] => true
  | DieTree.mk info children :: rest =>
    (if info.tag = DW_TAG_enumerator then
       decide (parentTag = DW_TAG_enumeration_type ∧ parentDecl = false)
     else true) &&
    (if info.tag = DW_TAG_enumeration_type then decide (info.offset ≠ 0)
     else true) &&
    wf_die_forest info.tag info.decl children &&
    wf_die_forest parentTag parentDecl rest
  termination_by l => sizeOf l
  decreasing_by all_goals simp_wf <;> omega

/-- Well-formedness of a compile unit's DIE forest: the parent of the
top-level DIEs is the compile-unit root. -/
def wf_cu (roots : List DieTree) : Bool :=
  wf_die_forest DW_TAG_compile_unit false roots

/-- Modelled from the spec: the unsigned integer type corresponding to a
standard signed integer type. -/
def spec_corresponding_unsigned : CPrim → CPrim
  | .char => .uchar
  | .schar => .uchar
  | .short => .ushort
  | .int => .uint
  | .long => .ulong
  | .llong => .ullong
  | p => p

/-- Modelled from the spec: the two-character escapes of the claim, as a
lookup table from byte value to escape sequence. -/
def spec_two_char_escapes : List (Nat × List Char) :=
  [(7, ['\\', 'a']), (8, ['\\', 'b']), (9, ['\\', 't']),
   (10, ['\\', 'n']), (11, ['\\', 'v']), (12, ['\\', 'f']),
   (13, ['\\', 'r']), (34, ['\\', '"']), (92, ['\\', '\\'])]

/-- Modelled from the spec: the formatter output demanded by the claim —
the table escape for the nine escaped bytes, the four-character
hexadecimal escape for every other byte at most 0x1f or at least 0x7f,
and the byte itself otherwise. -/
def spec_character_escape (c : Nat) : List Char :=
  match spec_two_char_escapes.find? (fun p => p.1 == c) with
  | some p => p.2
  | none =>
    if c ≤ 0x1f ∨ 0x7f ≤ c then
      ['\\', 'x', Nat.digitChar (c / 16), Nat.digitChar (c % 16)]
    else [Char.ofNat c]

/-- All primitive tags, for exhausting the finitely many primitive
pairs of claim C6 in one evaluation. -/
def allCPrims : List CPrim :=
  [.void, .char, .schar, .uchar, .short, .ushort, .int, .uint,
   .long, .ulong, .llong, .ullong, .boolP, .floatP, .doubleP,
   .longDoubleP, .sizeT, .ptrdiffT]

/-- Executable check of claim C6 at one pair of primitive tags: if both
canonical descriptors are integer-kinded promotion fixed points of equal
conversion rank and different signedness, then the signed one cannot
represent the unsigned one and the common real type is the unsigned type
corresponding to the signed one. -/
def c6_pair_check (p1 p2 : CPrim) : Bool :=
  !(decide ((primitive_types p1).kind = CTypeKind.intK) &&
    decide ((primitive_types p2).kind = CTypeKind.intK) &&
    decide (c_integer_promotions ⟨primitive_types p1, 0⟩ =
      .ok ⟨primitive_types p1, 0⟩) &&
    decide (c_integer_promotions ⟨primitive_types p2, 0⟩ =
      .ok ⟨primitive_types p2, 0⟩) &&
    decide (c_integer_conversion_rank p1 = c_integer_conversion_rank p2) &&
    decide ((primitive_types p1).isSigned ≠ (primitive_types p2).isSigned)) ||
  (decide (c_can_represent_all_values
      (primitive_types (if (primitive_types p1).isSigned then p1 else p2)) 0
      (primitive_types (if (primitive_types p1).isSigned then p2 else p1)) 0
      = false) &&
   decide (c_common_real_type ⟨primitive_types p1, 0⟩ ⟨primitive_types p2, 0⟩ =
      .ok ⟨primitive_types (spec_corresponding_unsigned
        (if (primitive_types p1).isSigned then p1 else p2)), 0⟩))

/-!
## Theorems
-/

/-! ### C2 -/

/-- C2: the claim fails on the code.  For the hexadecimal token 0xa, the
claim requires the value 10 (a contributes 10 in base 16), and the
spec-side conversion agrees, but c_token_to_u64 returns 0: the digit
computation for 'a'..'f' and 'A'..'F' is c - 'a' and c - 'A' without the
+ 10, so every hexadecimal token with an alphabetic digit converts to the
wrong value. -/
theorem c_token_to_u64_hex_divergence :
    c_token_to_u64 ['0', 'x', 'a'] = .ok 0 ∧
    spec_token_value ['0', 'x', 'a'] = some 10 := by
  constructor <;> decide

/-! ### C5 -/

/-- C5: the claim fails on the code.  The identifier size_ty is neither
size_t nor ptrdiff_t, so the claim (and the spec-side resolution) sends
it to a typedef lookup by its full name, but the strncmp prefix
comparison in c_parse_specifier_qualifier_list accepts it and resolves it
to the canonical size_t primitive. -/
theorem c_resolve_type_identifier_prefix_divergence :
    c_resolve_type_identifier ['s', 'i', 'z', 'e', '_', 't', 'y'] =
      .primSizeT ∧
    spec_resolve_type_identifier ['s', 'i', 'z', 'e', '_', 't', 'y'] =
      .typedefLookup ['s', 'i', 'z', 'e', '_', 't', 'y'] := by
  constructor <;> decide

/-! ### C10 -/

/-- C10: the claim fails on the code.  Both accessors bound-check with
index > max where max is the number of symbols, so the first
out-of-range index — index equal to the count — passes the check and the
C code reads symbols[count], one element past the end of the vector
(modelled by Except.ok none), instead of failing with the out-of-bounds
error the claim requires.  Shown here on a frame with no parameters and
no variables at index 0, and on a one-parameter frame at index 1. -/
theorem stack_frame_by_index_off_by_one :
    drgn_stack_frame_parameter_by_index [] 0 = .ok none ∧
    drgn_stack_frame_variable_by_index [] 0 = .ok none ∧
    drgn_stack_frame_parameter_by_index [⟨['x']⟩] 1 = .ok none ∧
    drgn_stack_frame_parameter_by_index [⟨['x']⟩] 2 = .error .outOfBounds := by
  refine ⟨rfl, rfl, rfl, rfl⟩

/-! ### C1 -/

/-- C1: the claim fails on the code.  Scenario: a first (successful)
update indexes a definition of foo from file 100; a second update opens
file 200, indexes a conflicting definition of foo (index_die links the
old tail entry to the new entry at index 1), and then fails, so
unindex_files marks file 200 failed, truncates the shard to num_entries
= 1 and purges map heads at or beyond 1.  The truncation does not clear
the surviving entry's next link, so a lookup of foo still walks from the
surviving head through the stale link and reaches the failed file's
entry: the index is not restored to its pre-update state and entries of
the failed file remain reachable. -/
theorem dwarf_index_failed_update_still_reachable :
    ((index_die emptyShard ['f', 'o', 'o'] 4 11 100 50).bind
      (fun s => index_die s ['f', 'o', 'o'] 4 22 200 60)).map
      (fun s =>
        let s3 := unindex_files [200] s
        (s3.num_entries, (lookup_chain s3 ['f', 'o', 'o']).map DieEntry.file))
    = some (1, [100, 200]) := by
  decide

/-! ### C9 -/

/-- C9: for every program marked live and not the Linux kernel, both
drgn_program_stack_trace and drgn_object_stack_trace return an
invalid-argument error before any unwinder state is attached, for every
thread id and every object. -/
theorem live_process_stack_trace_rejected (prog : ProgramState) (tid : Nat)
    (obj : StackTraceObject) (hl : prog.isLive = true)
    (hk : prog.isLinuxKernel = false) :
    drgn_program_stack_trace prog tid = .failedBeforeAttach .invalidArgument ∧
    drgn_object_stack_trace prog obj = .failedBeforeAttach .invalidArgument := by
  obtain ⟨hp, kk, ll⟩ := prog
  simp only at hl hk
  subst hl; subst hk
  cases hp <;> cases obj <;> exact ⟨rfl, rfl⟩

/-- Witness for C9 at a concrete live user-space program. -/
theorem live_process_stack_trace_rejected_witness :
    drgn_program_stack_trace ⟨true, false, true⟩ 5 =
      .failedBeforeAttach .invalidArgument ∧
    drgn_object_stack_trace ⟨true, false, true⟩ .otherObject =
      .failedBeforeAttach .invalidArgument :=
  live_process_stack_trace_rejected ⟨true, false, true⟩ 5 .otherObject rfl rfl

/-! ### C8 -/

/-- The printf %x digit agrees with the digit-character table for every
value a byte's nibble can take. -/
theorem hex_char_eq_digitChar (n : Nat) (h : n < 16) :
    hex_char n = Nat.digitChar n := by
  revert h; revert n; decide

/-- C8: for every byte, the character formatter emits exactly the
two-character escapes for bell, backspace, tab, newline, vertical tab,
form feed, carriage return, double quote and backslash; the
four-character hexadecimal escape backslash-x-H-H for every other byte
at most 0x1f or at least 0x7f; and the byte itself unescaped
otherwise. -/
theorem c_pretty_print_character_spec (c : Nat) (h : c < 256) :
    c_pretty_print_character c = spec_character_escape c := by
  by_cases h7 : c = 7
  · subst h7; rfl
  by_cases h8 : c = 8
  · subst h8; rfl
  by_cases h9 : c = 9
  · subst h9; rfl
  by_cases h10 : c = 10
  · subst h10; rfl
  by_cases h11 : c = 11
  · subst h11; rfl
  by_cases h12 : c = 12
  · subst h12; rfl
  by_cases h13 : c = 13
  · subst h13; rfl
  by_cases h34 : c = 34
  · subst h34; rfl
  by_cases h92 : c = 92
  · subst h92; rfl
  have hfind : spec_two_char_escapes.find? (fun p => p.1 == c) = none := by
    unfold spec_two_char_escapes
    rw [List.find?_cons_of_neg _ (by simp; omega),
      List.find?_cons_of_neg _ (by simp; omega),
      List.find?_cons_of_neg _ (by simp; omega),
      List.find?_cons_of_neg _ (by simp; omega),
      List.find?_cons_of_neg _ (by simp; omega),
      List.find?_cons_of_neg _ (by simp; omega),
      List.find?_cons_of_neg _ (by simp; omega),
      List.find?_cons_of_neg _ (by simp; omega),
      List.find?_cons_of_neg _ (by simp; omega)]
    rfl
  unfold c_pretty_print_character spec_character_escape
  rw [hfind, if_neg h7, if_neg h8, if_neg h9, if_neg h10, if_neg h11,
    if_neg h12, if_neg h13, if_neg h34, if_neg h92]
  by_cases hrange : c ≤ 0x1f ∨ 0x7f ≤ c
  · rw [if_pos hrange, if_pos hrange,
      hex_char_eq_digitChar (c / 16) (by omega),
      hex_char_eq_digitChar (c % 16) (by omega)]
  · rw [if_neg hrange, if_neg hrange]

/-- Witness for C8: the formatter agrees with the claim on the nul byte,
which gets the hexadecimal escape backslash-x-0-0. -/
theorem c_pretty_print_character_spec_witness :
    c_pretty_print_character 0 = spec_character_escape 0 ∧
    c_pretty_print_character 0 = ['\\', 'x', '0', '0'] :=
  ⟨c_pretty_print_character_spec 0 (by decide), by decide⟩

/-! ### C6 -/

/-- C6: in the usual arithmetic conversions, when two promoted integer
operands (integer-kinded canonical primitive types that are fixed points
of the integer promotions, with no bit field) have equal conversion rank
but different signedness, the signed operand's type cannot represent all
values of the unsigned operand's type, and the common real type is the
unsigned integer type corresponding to the signed operand's type. -/
theorem c_common_real_type_equal_rank_mixed_sign (p1 p2 : CPrim)
    (hk1 : (primitive_types p1).kind = .intK)
    (hk2 : (primitive_types p2).kind = .intK)
    (hp1 : c_integer_promotions ⟨primitive_types p1, 0⟩ =
      .ok ⟨primitive_types p1, 0⟩)
    (hp2 : c_integer_promotions ⟨primitive_types p2, 0⟩ =
      .ok ⟨primitive_types p2, 0⟩)
    (hrank : c_integer_conversion_rank p1 = c_integer_conversion_rank p2)
    (hsign : (primitive_types p1).isSigned ≠ (primitive_types p2).isSigned) :
    c_can_represent_all_values
        (primitive_types (if (primitive_types p1).isSigned then p1 else p2)) 0
        (primitive_types (if (primitive_types p1).isSigned then p2 else p1)) 0
      = false ∧
    c_common_real_type ⟨primitive_types p1, 0⟩ ⟨primitive_types p2, 0⟩ =
      .ok ⟨primitive_types (spec_corresponding_unsigned
            (if (primitive_types p1).isSigned then p1 else p2)), 0⟩ := by
  have hall : (allCPrims.all fun a => allCPrims.all fun b =>
      c6_pair_check a b) = true := by rfl
  have hmem : ∀ p : CPrim, p ∈ allCPrims := by
    intro p; cases p <;> simp [allCPrims]
  have hpair := List.all_eq_true.mp
    (List.all_eq_true.mp hall p1 (hmem p1)) p2 (hmem p2)
  unfold c6_pair_check at hpair
  rw [decide_eq_true hk1, decide_eq_true hk2, decide_eq_true hp1,
    decide_eq_true hp2, decide_eq_true hrank, decide_eq_true hsign] at hpair
  simp only [Bool.and_self, Bool.not_true, Bool.false_or,
    Bool.and_eq_true, decide_eq_true_eq] at hpair
  exact hpair

/-- Witness for C6 at long and unsigned long: the signed long cannot
represent every unsigned long value, and the common real type is
unsigned long. -/
theorem c_common_real_type_equal_rank_mixed_sign_witness :
    c_can_represent_all_values (primitive_types .long) 0
        (primitive_types .ulong) 0 = false ∧
    c_common_real_type ⟨primitive_types .long, 0⟩
        ⟨primitive_types .ulong, 0⟩ = .ok ⟨primitive_types .ulong, 0⟩ := by
  have h := c_common_real_type_equal_rank_mixed_sign .long .ulong
    (by decide) (by decide) (by decide) (by decide) (by decide) (by decide)
  exact ⟨h.1, h.2⟩

/-! ### C4 -/

/-- A little-endian store does not change the length of the byte array. -/
theorem write_le_bytes_length (w : Nat) :
    ∀ (bytes : List Nat) (off val : Nat),
      (write_le_bytes bytes off w val).length = bytes.length := by
  induction w with
  | zero => intro bytes off val; rfl
  | succ w ih =>
    intro bytes off val
    rw [write_le_bytes, ih, List.length_set]

/-- Pointwise description of a little-endian store that stays inside the
array: position i of the result holds byte i - off of the value inside
the written window and the original byte outside it. -/
theorem write_le_bytes_get (w : Nat) :
    ∀ (bytes : List Nat) (off val : Nat), off + w ≤ bytes.length →
      ∀ i, (write_le_bytes bytes off w val)[i]? =
        if off ≤ i ∧ i < off + w then some (val / 256 ^ (i - off) % 256)
        else bytes[i]? := by
  induction w with
  | zero =>
    intro bytes off val _ i
    rw [if_neg (by omega)]; rfl
  | succ w ih =>
    intro bytes off val h i
    have hoff : off < bytes.length := by omega
    have h2 : (off + 1) + w ≤ (bytes.set off (val % 256)).length := by
      rw [List.length_set]; omega
    rw [show write_le_bytes bytes off (w + 1) val =
          write_le_bytes (bytes.set off (val % 256)) (off + 1) w (val / 256)
        from rfl,
      ih _ _ _ h2 i]
    by_cases hi : i = off
    · subst hi
      rw [if_neg (by omega), if_pos (by omega),
        List.getElem?_set_self hoff]
      simp [Nat.sub_self]
    · by_cases hwin : off + 1 ≤ i ∧ i < off + 1 + w
      · rw [if_pos hwin, if_pos (by omega)]
        have he : i - off = (i - (off + 1)) + 1 := by omega
        have hv : val / 256 / 256 ^ (i - (off + 1)) = val / 256 ^ (i - off) := by
          rw [Nat.div_div_eq_div_mul, he, pow_succ']
        rw [hv]
      · rw [if_neg hwin, if_neg (by omega)]
        exact List.getElem?_set_ne (show off ≠ i from fun hc => hi hc.symm)

/-- C4: for every relocation entry applied to a debug section, a NONE
relocation succeeds and changes nothing; a 32-bit (R_X86_64_32)
relocation with a valid symbol index and in-bounds write stores the low
32 bits of symbol value + addend at the offset, byte by byte, leaving
every other byte unchanged; a 64-bit (R_X86_64_64) relocation stores the
full 64-bit value; a symbol index outside the symbol table or a write
extending past the end of the section fails with the elf-format error
and writes nothing; and an unknown relocation type fails with the
elf-format error. -/
theorem apply_relocation_spec (sect : List Nat) (symtab : List Elf64_Sym)
    (reloc : Elf64_Rela) :
    (reloc.r_type = R_X86_64_NONE →
      apply_relocation sect symtab reloc = .ok sect) ∧
    (reloc.r_type = R_X86_64_32 →
      (reloc.r_sym ≥ symtab.length ∨ reloc.r_offset + 4 > sect.length →
        apply_relocation sect symtab reloc = .error .elfFormat) ∧
      (∀ sym, symtab[reloc.r_sym]? = some sym →
        reloc.r_offset + 4 ≤ sect.length →
        ∃ out, apply_relocation sect symtab reloc = .ok out ∧
          out.length = sect.length ∧
          ∀ i, out[i]? =
            if reloc.r_offset ≤ i ∧ i < reloc.r_offset + 4 then
              some ((reloc_value sym reloc.r_addend % 2 ^ 32) /
                256 ^ (i - reloc.r_offset) % 256)
            else sect[i]?)) ∧
    (reloc.r_type = R_X86_64_64 →
      (reloc.r_sym ≥ symtab.length ∨ reloc.r_offset + 8 > sect.length →
        apply_relocation sect symtab reloc = .error .elfFormat) ∧
      (∀ sym, symtab[reloc.r_sym]? = some sym →
        reloc.r_offset + 8 ≤ sect.length →
        ∃ out, apply_relocation sect symtab reloc = .ok out ∧
          out.length = sect.length ∧
          ∀ i, out[i]? =
            if reloc.r_offset ≤ i ∧ i < reloc.r_offset + 8 then
              some (reloc_value sym reloc.r_addend /
                256 ^ (i - reloc.r_offset) % 256)
            else sect[i]?)) ∧
    (reloc.r_type ≠ R_X86_64_NONE → reloc.r_type ≠ R_X86_64_32 →
      reloc.r_type ≠ R_X86_64_64 →
      apply_relocation sect symtab reloc = .error .elfFormat) := by
  refine ⟨?_, ?_, ?_, ?_⟩
  · intro h0
    simp [apply_relocation, h0]
  · intro h32
    constructor
    · intro hbad
      rcases hbad with hsym | hoff
      · have hnone : symtab[reloc.r_sym]? = none :=
          List.getElem?_eq_none (by omega)
        simp [apply_relocation, h32, R_X86_64_32, R_X86_64_NONE, hnone]
      · rcases hget : symtab[reloc.r_sym]? with _ | sym <;>
          simp [apply_relocation, h32, R_X86_64_32, R_X86_64_NONE, hget, hoff]
    · intro sym hsym hle
      refine ⟨write_le_bytes sect reloc.r_offset 4
        (reloc_value sym reloc.r_addend % 2 ^ 32), ?_, ?_, ?_⟩
      · unfold apply_relocation
        rw [h32, if_neg (by decide), if_pos rfl]
        simp only [hsym]
        rw [if_neg (by omega)]
      · exact write_le_bytes_length 4 sect _ _
      · exact write_le_bytes_get 4 sect _ _ hle
  · intro h64
    constructor
    · intro hbad
      rcases hbad with hsym | hoff
      · have hnone : symtab[reloc.r_sym]? = none :=
          List.getElem?_eq_none (by omega)
        simp [apply_relocation, h64, R_X86_64_64, R_X86_64_32,
          R_X86_64_NONE, hnone]
      · rcases hget : symtab[reloc.r_sym]? with _ | sym <;>
          simp [apply_relocation, h64, R_X86_64_64, R_X86_64_32,
            R_X86_64_NONE, hget, hoff]
    · intro sym hsym hle
      refine ⟨write_le_bytes sect reloc.r_offset 8
        (reloc_value sym reloc.r_addend), ?_, ?_, ?_⟩
      · unfold apply_relocation
        rw [h64, if_neg (by decide), if_neg (by decide), if_pos rfl]
        simp only [hsym]
        rw [if_neg (by omega)]
      · exact write_le_bytes_length 8 sect _ _
      · exact write_le_bytes_get 8 sect _ _ hle
  · intro hn h32 h64
    simp [apply_relocation, hn, h32, h64]

/-- Witness for C4: a 32-bit relocation at offset 1 of a five-byte
section writes the little-endian bytes of symbol value 5 plus addend 2. -/
theorem apply_relocation_spec_witness :
    apply_relocation [9, 9, 9, 9, 9] [⟨5⟩] ⟨1, 0, 10, 2⟩ =
      .ok [9, 7, 0, 0, 0] := by
  obtain ⟨out, hout, hlen, hget⟩ :=
    ((apply_relocation_spec [9, 9, 9, 9, 9] [⟨5⟩] ⟨1, 0, 10, 2⟩).2.1 rfl).2
      ⟨5⟩ (by decide) (by decide)
  rw [hout]
  have : out = [9, 7, 0, 0, 0] := by
    have h5 : out.length = 5 := by simpa using hlen
    have g0 := hget 0
    have g1 := hget 1
    have g2 := hget 2
    have g3 := hget 3
    have g4 := hget 4
    simp only [show reloc_value ⟨5⟩ (2 : Int) = 7 from rfl] at g1 g2 g3 g4 g0
    norm_num at g0 g1 g2 g3 g4
    apply List.ext_getElem?
    intro i
    match i with
    | 0 => simpa using g0
    | 1 => simpa using g1
    | 2 => simpa using g2
    | 3 => simpa using g3
    | 4 => simpa using g4
    | n + 5 =>
      rw [List.getElem?_eq_none (by omega), List.getElem?_eq_none (by simp)]
  rw [this]

/-! ### C3 -/

/-- shard_wf bounds the live region by the backing array. -/
theorem shard_wf_le {sh : Shard} (h : shard_wf sh = true) :
    sh.num_entries ≤ sh.entries.length := by
  unfold shard_wf at h
  simp only [Bool.and_eq_true, decide_eq_true_eq] at h
  exact h.1.1

/-- shard_wf bounds every map head by the live region. -/
theorem shard_wf_head {sh : Shard} (h : shard_wf sh = true) {name : Str}
    {head : Nat} (hm : die_map_search sh.map name = some head) :
    head < sh.num_entries := by
  unfold shard_wf at h
  simp only [Bool.and_eq_true, decide_eq_true_eq, List.all_eq_true] at h
  unfold die_map_search at hm
  rcases hfind : sh.map.find? (fun p => p.1 == name) with _ | p
  · rw [hfind] at hm; cases hm
  · rw [hfind] at hm
    cases hm
    have hmem := List.mem_of_find?_eq_some hfind
    simpa using h.1.2 p hmem

/-- shard_wf makes every live entry's chain link point strictly forward
and stay inside the live region. -/
theorem shard_wf_next {sh : Shard} (h : shard_wf sh = true) {i : Nat}
    {e : DieEntry} (hi : i < sh.num_entries)
    (he : sh.entries[i]? = some e) {j : Nat} (hj : e.next = some j) :
    i < j ∧ j < sh.num_entries := by
  unfold shard_wf at h
  simp only [Bool.and_eq_true, decide_eq_true_eq, List.all_eq_true] at h
  have h2 := h.2 i (List.mem_range.mpr hi)
  rw [he] at h2
  have h3 : (match e.next with
    | none => true
    | some j => decide (i < j ∧ j < sh.num_entries)) = true := h2
  rw [hj] at h3
  simpa using h3

/-- Unfolding step of the iterator chain walk at a terminator entry. -/
theorem chain_list_cons_none {E : List DieEntry} {i fuel : Nat}
    {e : DieEntry} (he : E[i]? = some e) (hn : e.next = none) :
    chain_list E (fuel + 1) i = [e] := by
  simp only [chain_list, he, hn]

/-- Unfolding step of the iterator chain walk at a linked entry. -/
theorem chain_list_cons_some {E : List DieEntry} {i fuel j : Nat}
    {e : DieEntry} (he : E[i]? = some e) (hn : e.next = some j) :
    chain_list E (fuel + 1) i = e :: chain_list E fuel j := by
  simp only [chain_list, he, hn]

/-- Unfolding step of the index_die chain walk at a matching entry. -/
theorem find_in_chain_step_dup {E : List DieEntry} {tag hash i fuel : Nat}
    {e : DieEntry} (he : E[i]? = some e)
    (hm : e.tag = tag ∧ e.file_name_hash = hash) :
    find_in_chain E tag hash (fuel + 1) i = some none := by
  simp only [find_in_chain, he, if_pos hm]

/-- Unfolding step of the index_die chain walk at a non-matching
terminator entry. -/
theorem find_in_chain_step_tail {E : List DieEntry} {tag hash i fuel : Nat}
    {e : DieEntry} (he : E[i]? = some e)
    (hm : ¬(e.tag = tag ∧ e.file_name_hash = hash)) (hn : e.next = none) :
    find_in_chain E tag hash (fuel + 1) i = some (some i) := by
  simp only [find_in_chain, he, if_neg hm, hn]

/-- Unfolding step of the index_die chain walk at a non-matching linked
entry. -/
theorem find_in_chain_step_next {E : List DieEntry} {tag hash i fuel j : Nat}
    {e : DieEntry} (he : E[i]? = some e)
    (hm : ¬(e.tag = tag ∧ e.file_name_hash = hash)) (hn : e.next = some j) :
    find_in_chain E tag hash (fuel + 1) i =
      find_in_chain E tag hash fuel j := by
  simp only [find_in_chain, he, if_neg hm, hn]

/-- The fuel given to a chain walk does not matter once it covers the
number of remaining live entries, because chain links move strictly
forward. -/
theorem chain_list_fuel {E : List DieEntry} {n : Nat}
    (hc : ∀ i e, i < n → E[i]? = some e →
      ∀ j, e.next = some j → i < j ∧ j < n)
    (hl : n ≤ E.length) :
    ∀ f1 f2 i, i < n → n - i ≤ f1 → n - i ≤ f2 →
      chain_list E f1 i = chain_list E f2 i := by
  intro f1
  induction f1 with
  | zero => intro f2 i hi h1 _; omega
  | succ f1 ih =>
    intro f2 i hi h1 h2
    obtain ⟨f2, rfl⟩ : ∃ f2a, f2 = f2a + 1 := ⟨f2 - 1, by omega⟩
    have he : E[i]? = some E[i] := List.getElem?_eq_getElem (by omega)
    rcases hn : (E[i]).next with _ | j
    · rw [chain_list_cons_none he hn, chain_list_cons_none he hn]
    · have hij := hc i _ hi he j hn
      rw [chain_list_cons_some he hn, chain_list_cons_some he hn,
        ih f2 j (by omega) (by omega) (by omega)]

/-- When the chain from a live index holds an entry with the given tag
and hash, the index_die walk reports the duplicate. -/
theorem find_in_chain_dup {E : List DieEntry} {n tag hash : Nat}
    (hc : ∀ i e, i < n → E[i]? = some e →
      ∀ j, e.next = some j → i < j ∧ j < n)
    (hl : n ≤ E.length) :
    ∀ fuel i, i < n → n - i ≤ fuel →
      (∃ e ∈ chain_list E fuel i, e.tag = tag ∧ e.file_name_hash = hash) →
      find_in_chain E tag hash fuel i = some none := by
  intro fuel
  induction fuel with
  | zero => intro i hi h1; omega
  | succ fuel ih =>
    intro i hi h1 hdup
    have he : E[i]? = some E[i] := List.getElem?_eq_getElem (by omega)
    by_cases hmatch : (E[i]).tag = tag ∧ (E[i]).file_name_hash = hash
    · exact find_in_chain_step_dup he hmatch
    · rcases hn : (E[i]).next with _ | j
      · exfalso
        rw [chain_list_cons_none he hn] at hdup
        rcases hdup with ⟨e, hmem, hprop⟩
        simp only [List.mem_singleton] at hmem
        exact hmatch (hmem ▸ hprop)
      · have hij := hc i _ hi he j hn
        rw [find_in_chain_step_next he hmatch hn]
        apply ih j (by omega) (by omega)
        rw [chain_list_cons_some he hn] at hdup
        rcases hdup with ⟨e, hmem, hprop⟩
        simp only [List.mem_cons] at hmem
        rcases hmem with rfl | hmem
        · exact absurd hprop hmatch
        · exact ⟨e, hmem, hprop⟩

/-- When the chain from a live index holds no entry with the given tag
and hash, the index_die walk finds the tail entry of the chain, and
rewriting that tail's link to a fresh terminator entry extends the
observed chain by exactly that entry. -/
theorem find_in_chain_no_dup {E : List DieEntry} {n tag hash : Nat}
    (hc : ∀ i e, i < n → E[i]? = some e →
      ∀ j, e.next = some j → i < j ∧ j < n)
    (hl : n ≤ E.length) :
    ∀ fuel i, i < n → n - i ≤ fuel →
      (∀ e ∈ chain_list E fuel i, ¬(e.tag = tag ∧ e.file_name_hash = hash)) →
      ∃ t tailE, find_in_chain E tag hash fuel i = some (some t) ∧
        i ≤ t ∧ t < n ∧ E[t]? = some tailE ∧ tailE.next = none ∧
        ∀ (E2 : List DieEntry) (m : Nat) (newE : DieEntry),
          (∀ k, k < n → k ≠ t → E2[k]? = E[k]?) →
          E2[t]? = some { tailE with next := some m } →
          E2[m]? = some newE → newE.next = none →
          ∀ f2, n - i + 1 ≤ f2 →
            (chain_list E2 f2 i).map DieEntry.data =
              (chain_list E fuel i).map DieEntry.data ++ [newE.data] := by
  intro fuel
  induction fuel with
  | zero => intro i hi h1; omega
  | succ fuel ih =>
    intro i hi h1 hnodup
    have he : E[i]? = some E[i] := List.getElem?_eq_getElem (by omega)
    have hmatch : ¬((E[i]).tag = tag ∧ (E[i]).file_name_hash = hash) := by
      apply hnodup
      rcases hn : (E[i]).next with _ | j
      · rw [chain_list_cons_none he hn]; exact List.mem_singleton.mpr rfl
      · rw [chain_list_cons_some he hn]; exact List.mem_cons_self _ _
    rcases hn : (E[i]).next with _ | j
    · refine ⟨i, E[i], find_in_chain_step_tail he hmatch hn, Nat.le_refl i,
        hi, he, hn, ?_⟩
      intro E2 m newE hagree ht hm hmn f2 hf2
      obtain ⟨f2a, rfl⟩ : ∃ a, f2 = a + 2 := ⟨f2 - 2, by omega⟩
      rw [chain_list_cons_some ht rfl, chain_list_cons_none hm hmn,
        chain_list_cons_none he hn]
      simp [DieEntry.data]
    · have hij := hc i _ hi he j hn
      have hnodup2 : ∀ e ∈ chain_list E fuel j,
          ¬(e.tag = tag ∧ e.file_name_hash = hash) := by
        intro e hmem
        exact hnodup e
          (by rw [chain_list_cons_some he hn]
              exact List.mem_cons_of_mem _ hmem)
      obtain ⟨t, tailE, hfind, hjt, htn, hte, htnone, hext⟩ :=
        ih j (by omega) (by omega) hnodup2
      refine ⟨t, tailE, ?_, by omega, htn, hte, htnone, ?_⟩
      · rw [find_in_chain_step_next he hmatch hn]; exact hfind
      · intro E2 m newE hagree ht hm hmn f2 hf2
        obtain ⟨f2a, rfl⟩ : ∃ a, f2 = a + 1 := ⟨f2 - 1, by omega⟩
        have hi2 : E2[i]? = some E[i] := by
          rw [hagree i hi (by omega)]; exact he
        rw [chain_list_cons_some hi2 hn, chain_list_cons_some he hn]
        simp only [List.map_cons, List.cons_append]
        congr 1
        exact hext E2 m newE hagree ht hm hmn f2a (by omega)

/-- Appending an entry leaves the map untouched and bumps num_entries. -/
theorem append_die_entry_map_num (sh : Shard) (tag hash file offset : Nat) :
    (append_die_entry sh tag hash file offset).map = sh.map ∧
    (append_die_entry sh tag hash file offset).num_entries =
      sh.num_entries + 1 := ⟨rfl, rfl⟩

/-- The backing array can only grow when an entry is appended, and the
slot of the new entry lies inside it. -/
theorem append_die_entry_len (sh : Shard) (tag hash file offset : Nat)
    (h : sh.num_entries ≤ sh.entries.length) :
    sh.entries.length ≤ (append_die_entry sh tag hash file offset).entries.length ∧
    sh.num_entries < (append_die_entry sh tag hash file offset).entries.length := by
  unfold append_die_entry
  by_cases hlt : sh.num_entries < sh.entries.length
  · simp only [if_pos hlt, List.length_set]
    omega
  · simp only [if_neg hlt, List.length_append, List.length_singleton]
    omega

/-- Appending an entry does not change the slots of the live region. -/
theorem append_die_entry_get_lt (sh : Shard) (tag hash file offset k : Nat)
    (hk : k < sh.num_entries) (h : sh.num_entries ≤ sh.entries.length) :
    (append_die_entry sh tag hash file offset).entries[k]? =
      sh.entries[k]? := by
  unfold append_die_entry
  by_cases hlt : sh.num_entries < sh.entries.length
  · simp only [if_pos hlt]
    exact List.getElem?_set_ne (by omega)
  · simp only [if_neg hlt, List.getElem?_append]
    rw [if_pos (by omega)]

/-- The appended entry sits at position num_entries with a clear link. -/
theorem append_die_entry_get_new (sh : Shard) (tag hash file offset : Nat)
    (h : sh.num_entries ≤ sh.entries.length) :
    (append_die_entry sh tag hash file offset).entries[sh.num_entries]? =
      some ⟨tag, hash, file, offset, none⟩ := by
  unfold append_die_entry
  by_cases hlt : sh.num_entries < sh.entries.length
  · simp only [if_pos hlt]
    exact List.getElem?_set_self hlt
  · have heq : sh.num_entries = sh.entries.length := by omega
    simp only [if_neg hlt]
    rw [List.getElem?_append_right (by omega), heq]
    simp

/-- A fresh name maps to the index of its appended head entry. -/
theorem die_map_search_cons_self (m : List (Str × Nat)) (name : Str)
    (idx : Nat) :
    die_map_search ((name, idx) :: m) name = some idx := by
  unfold die_map_search
  rw [List.find?_cons_of_pos _ (by simp)]

/-- C3: on a well-formed shard, index_die leaves the shard unchanged when
the chain for the name already holds an entry with the same tag and
source-file hash; otherwise it succeeds and the chain observed by a
lookup becomes the old chain with the new definition appended at the
tail (heads and the order of existing entries are preserved); and in
either case a chain with at most one entry per (tag, hash) pair keeps
that property. -/
theorem index_die_chain_spec (sh : Shard) (name : Str)
    (tag hash file offset : Nat) (hwf : shard_wf sh = true) :
    ((∃ e ∈ lookup_chain sh name, e.tag = tag ∧ e.file_name_hash = hash) →
      index_die sh name tag hash file offset = some sh) ∧
    ((∀ e ∈ lookup_chain sh name, ¬(e.tag = tag ∧ e.file_name_hash = hash)) →
      ∃ sh2, index_die sh name tag hash file offset = some sh2 ∧
        (lookup_chain sh2 name).map DieEntry.data =
          (lookup_chain sh name).map DieEntry.data ++
            [(tag, hash, file, offset)]) ∧
    (∀ sh2, index_die sh name tag hash file offset = some sh2 →
      ((lookup_chain sh name).map DieEntry.data).Pairwise
        (fun a b => ¬(a.1 = b.1 ∧ a.2.1 = b.2.1)) →
      ((lookup_chain sh2 name).map DieEntry.data).Pairwise
        (fun a b => ¬(a.1 = b.1 ∧ a.2.1 = b.2.1))) := by
  have hle := shard_wf_le hwf
  have hc : ∀ i e, i < sh.num_entries → sh.entries[i]? = some e →
      ∀ j, e.next = some j → i < j ∧ j < sh.num_entries :=
    fun i e hi he j hj => shard_wf_next hwf hi he hj
  have h12 : ((∃ e ∈ lookup_chain sh name,
        e.tag = tag ∧ e.file_name_hash = hash) →
      index_die sh name tag hash file offset = some sh) ∧
      ((∀ e ∈ lookup_chain sh name,
        ¬(e.tag = tag ∧ e.file_name_hash = hash)) →
      ∃ sh2, index_die sh name tag hash file offset = some sh2 ∧
        (lookup_chain sh2 name).map DieEntry.data =
          (lookup_chain sh name).map DieEntry.data ++
            [(tag, hash, file, offset)]) := by
    rcases hmap : die_map_search sh.map name with _ | head
    · have hch : lookup_chain sh name = [] := by
        unfold lookup_chain; rw [hmap]
      constructor
      · intro hdup
        rw [hch] at hdup
        simp at hdup
      · intro _
        have hidx : index_die sh name tag hash file offset =
            some { append_die_entry sh tag hash file offset with
                   map := (name, sh.num_entries) :: sh.map } := by
          simp only [index_die, hmap,
            (append_die_entry_map_num sh tag hash file offset).1,
            (append_die_entry_map_num sh tag hash file offset).2,
            Nat.add_sub_cancel]
        refine ⟨_, hidx, ?_⟩
        rw [hch]
        have hnew := append_die_entry_get_new sh tag hash file offset hle
        have hlen := append_die_entry_len sh tag hash file offset hle
        have hchain2 : lookup_chain
            { append_die_entry sh tag hash file offset with
              map := (name, sh.num_entries) :: sh.map } name =
            [⟨tag, hash, file, offset, none⟩] := by
          unfold lookup_chain
          rw [die_map_search_cons_self]
          exact chain_list_cons_none hnew rfl
        rw [hchain2]
        simp [DieEntry.data]
    · have hhead := shard_wf_head hwf hmap
      have hch : lookup_chain sh name =
          chain_list sh.entries (sh.entries.length + 1) head := by
        unfold lookup_chain; rw [hmap]
      have hbr : chain_list sh.entries (sh.entries.length + 1) head =
          chain_list sh.entries (sh.num_entries + 1) head :=
        chain_list_fuel hc hle _ _ head hhead (by omega) (by omega)
      constructor
      · intro hdup
        rw [hch, hbr] at hdup
        have hfind := find_in_chain_dup hc hle (sh.num_entries + 1) head
          hhead (by omega) hdup
        simp only [index_die, hmap, hfind]
      · intro hnodup
        rw [hch, hbr] at hnodup
        obtain ⟨t, tailE, hfind, hit, htn, hte, htnone, hext⟩ :=
          find_in_chain_no_dup hc hle (sh.num_entries + 1) head hhead
            (by omega) hnodup
        have hget_t : (append_die_entry sh tag hash file offset).entries[t]? =
            some tailE := by
          rw [append_die_entry_get_lt sh tag hash file offset t htn hle]
          exact hte
        have hlen := append_die_entry_len sh tag hash file offset hle
        have hidx : index_die sh name tag hash file offset =
            some { append_die_entry sh tag hash file offset with
                   entries := (append_die_entry sh tag hash file
                       offset).entries.set t
                     { tailE with next := some sh.num_entries } } := by
          simp only [index_die, hmap, hfind, hget_t,
            (append_die_entry_map_num sh tag hash file offset).2,
            Nat.add_sub_cancel]
        refine ⟨_, hidx, ?_⟩
        have hsetlen : ((append_die_entry sh tag hash file
            offset).entries.set t
              { tailE with next := some sh.num_entries }).length =
            (append_die_entry sh tag hash file offset).entries.length :=
          List.length_set _ _ _
        have hagree : ∀ k, k < sh.num_entries → k ≠ t →
            ((append_die_entry sh tag hash file offset).entries.set t
              { tailE with next := some sh.num_entries })[k]? =
            sh.entries[k]? := by
          intro k hk hkt
          rw [List.getElem?_set_ne (fun hc2 => hkt hc2.symm)]
          exact append_die_entry_get_lt sh tag hash file offset k hk hle
        have hsett : ((append_die_entry sh tag hash file offset).entries.set t
              { tailE with next := some sh.num_entries })[t]? =
            some { tailE with next := some sh.num_entries } :=
          List.getElem?_set_self (by omega)
        have hsetm : ((append_die_entry sh tag hash file offset).entries.set t
              { tailE with next := some sh.num_entries })[sh.num_entries]? =
            some ⟨tag, hash, file, offset, none⟩ := by
          rw [List.getElem?_set_ne (by omega)]
          exact append_die_entry_get_new sh tag hash file offset hle
        have hres := hext _ sh.num_entries ⟨tag, hash, file, offset, none⟩
          hagree hsett hsetm rfl
          (((append_die_entry sh tag hash file offset).entries.set t
            { tailE with next := some sh.num_entries }).length + 1)
          (by rw [hsetlen]; omega)
        have hchain2 : lookup_chain
            { append_die_entry sh tag hash file offset with
              entries := (append_die_entry sh tag hash file
                  offset).entries.set t
                { tailE with next := some sh.num_entries } } name =
            chain_list ((append_die_entry sh tag hash file
              offset).entries.set t
                { tailE with next := some sh.num_entries })
              (((append_die_entry sh tag hash file offset).entries.set t
                { tailE with next := some sh.num_entries }).length + 1)
              head := by
          unfold lookup_chain
          rw [show ({ append_die_entry sh tag hash file offset with
              entries := (append_die_entry sh tag hash file
                  offset).entries.set t
                { tailE with next := some sh.num_entries } } : Shard).map
            = sh.map from rfl, hmap]
        rw [hchain2, hch, hbr, hres]
        simp [DieEntry.data]
  refine ⟨h12.1, h12.2, ?_⟩
  intro sh2 hidx hpw
  by_cases hdup : ∃ e ∈ lookup_chain sh name,
      e.tag = tag ∧ e.file_name_hash = hash
  · have heq := h12.1 hdup
    rw [heq] at hidx
    cases hidx
    exact hpw
  · push_neg at hdup
    obtain ⟨sh2a, hidx2, hmapeq⟩ := h12.2 (by
      intro e hmem
      intro hcon
      exact hdup e hmem hcon.1 hcon.2)
    rw [hidx2] at hidx
    cases hidx
    rw [hmapeq]
    rw [List.pairwise_append]
    refine ⟨hpw, List.pairwise_singleton _ _, ?_⟩
    intro a ha b hb
    simp only [List.mem_singleton] at hb
    subst hb
    simp only [List.mem_map] at ha
    obtain ⟨e, hmem, rfl⟩ := ha
    simp only [DieEntry.data, not_and]
    intro h1 h2
    exact hdup e hmem h1 h2

/-- Witness for C3: on the empty shard (trivially well-formed) the
no-duplicate branch applies and inserting a definition yields a
one-entry chain for its name. -/
theorem index_die_chain_spec_witness :
    ∃ sh2, index_die emptyShard ['a'] 1 2 3 4 = some sh2 ∧
      (lookup_chain sh2 ['a']).map DieEntry.data =
        (lookup_chain emptyShard ['a']).map DieEntry.data ++
          [(1, 2, 3, 4)] :=
  (index_die_chain_spec emptyShard ['a'] 1 2 3 4 (by decide)).2.1
    (by intro e hmem; simp [lookup_chain, die_map_search, emptyShard] at hmem)

/-! ### C7 -/

/-- The walk of an empty sibling chain changes nothing. -/
theorem walk_dies_nil (d eo : Nat) : walk_dies d eo [] = (eo, []) := by
  simp [walk_dies]

/-- Enumeration-offset state after a DIE whose subtree is descended
into. -/
theorem walk_dies_fst_descend (d eo : Nat) (info : DieInfo)
    (children rest : List DieTree)
    (h : children.isEmpty = false ∧ info.sibling = false) :
    (walk_dies d eo (DieTree.mk info children :: rest)).1 =
      (walk_dies d
        (if d = 1 then 0
         else (walk_dies (d + 1) (process_die d eo info).1 children).1)
        rest).1 := by
  simp only [walk_dies, if_pos h]

/-- Calls collected from a DIE whose subtree is descended into. -/
theorem walk_dies_snd_descend (d eo : Nat) (info : DieInfo)
    (children rest : List DieTree)
    (h : children.isEmpty = false ∧ info.sibling = false) :
    (walk_dies d eo (DieTree.mk info children :: rest)).2 =
      (process_die d eo info).2 ++
      (walk_dies (d + 1) (process_die d eo info).1 children).2 ++
      (walk_dies d
        (if d = 1 then 0
         else (walk_dies (d + 1) (process_die d eo info).1 children).1)
        rest).2 := by
  simp only [walk_dies, if_pos h]

/-- Enumeration-offset state after a DIE whose subtree is skipped (no
children, or a sibling pointer). -/
theorem walk_dies_fst_skip (d eo : Nat) (info : DieInfo)
    (children rest : List DieTree)
    (h : ¬(children.isEmpty = false ∧ info.sibling = false)) :
    (walk_dies d eo (DieTree.mk info children :: rest)).1 =
      (walk_dies d (process_die d eo info).1 rest).1 := by
  simp only [walk_dies, if_neg h]

/-- Calls collected from a DIE whose subtree is skipped. -/
theorem walk_dies_snd_skip (d eo : Nat) (info : DieInfo)
    (children rest : List DieTree)
    (h : ¬(children.isEmpty = false ∧ info.sibling = false)) :
    (walk_dies d eo (DieTree.mk info children :: rest)).2 =
      (process_die d eo info).2 ++
      (walk_dies d (process_die d eo info).1 rest).2 := by
  simp only [walk_dies, if_neg h]

/-- Away from depth 1 the per-DIE step never changes the recorded
enumeration offset. -/
theorem process_die_fst (d eo : Nat) (info : DieInfo) (h : d ≠ 1) :
    (process_die d eo info).1 = eo := by
  unfold process_die
  by_cases h1 : info.tag = DW_TAG_compile_unit
  · rw [if_pos h1]
  · rw [if_neg h1]
    by_cases h2 : info.tag ≠ 0 ∧ info.decl = false
    · rw [if_pos h2, if_neg (fun hcon => h hcon.1)]
      by_cases h3 : d = 2 ∧ info.tag = DW_TAG_enumerator ∧ eo ≠ 0
      · rw [if_pos h3]
      · rw [if_neg h3, if_pos h]
    · rw [if_neg h2]

/-- Below depth 2 the per-DIE step indexes nothing. -/
theorem process_die_snd_deep (d eo : Nat) (info : DieInfo) (h1 : d ≠ 1)
    (h2 : d ≠ 2) : (process_die d eo info).2 = [] := by
  unfold process_die
  by_cases hcu : info.tag = DW_TAG_compile_unit
  · rw [if_pos hcu]
  · rw [if_neg hcu]
    by_cases hdecl : info.tag ≠ 0 ∧ info.decl = false
    · rw [if_pos hdecl, if_neg (fun hcon => h1 hcon.1),
        if_neg (fun hcon => h2 hcon.1), if_pos h1]
    · rw [if_neg hdecl]

/-- Any call the per-DIE step emits at depth 2 is an enumerator with a
name, from a non-declaration DIE, indexed under the nonzero recorded
enumeration offset. -/
theorem process_die_two_mem (eo : Nat) (info : DieInfo) (c : ICall)
    (hc : c ∈ (process_die 2 eo info).2) :
    info.tag = DW_TAG_enumerator ∧ info.decl = false ∧
    info.name = some c.name ∧ c.tag = DW_TAG_enumerator ∧
    c.offset = eo ∧ eo ≠ 0 := by
  unfold process_die at hc
  by_cases hcu : info.tag = DW_TAG_compile_unit
  · rw [if_pos hcu] at hc; simp at hc
  · rw [if_neg hcu] at hc
    by_cases hdecl : info.tag ≠ 0 ∧ info.decl = false
    · rw [if_pos hdecl, if_neg (by rintro ⟨hcon, -⟩; omega)] at hc
      by_cases h3 : (2 : Nat) = 2 ∧ info.tag = DW_TAG_enumerator ∧ eo ≠ 0
      · rw [if_pos h3] at hc
        rcases hname : info.name with _ | nm
        · rw [hname] at hc; simp at hc
        · rw [hname] at hc
          simp only [List.mem_singleton] at hc
          subst hc
          exact ⟨h3.2.1, hdecl.2, rfl, h3.2.1, rfl, h3.2.2⟩
      · rw [if_neg h3, if_pos (by omega)] at hc
        simp at hc
    · rw [if_neg hdecl] at hc; simp at hc

/-- Any call the per-DIE step emits at depth 1 indexes the DIE itself:
its own tag and offset, under its own name, and only for a named
non-declaration DIE of an indexed kind other than the compile unit. -/
theorem process_die_one_mem (eo : Nat) (info : DieInfo) (c : ICall)
    (hc : c ∈ (process_die 1 eo info).2) :
    info.tag ≠ DW_TAG_compile_unit ∧ info.tag ≠ 0 ∧ info.decl = false ∧
    info.name = some c.name ∧ c.tag = info.tag ∧ c.offset = info.offset := by
  unfold process_die at hc
  by_cases hcu : info.tag = DW_TAG_compile_unit
  · rw [if_pos hcu] at hc; simp at hc
  · rw [if_neg hcu] at hc
    by_cases hdecl : info.tag ≠ 0 ∧ info.decl = false
    · rw [if_pos hdecl] at hc
      by_cases henum : (1 : Nat) = 1 ∧ info.tag = DW_TAG_enumeration_type
      · rw [if_pos henum] at hc
        rcases hname : info.name with _ | nm
        · rw [hname] at hc; simp at hc
        · rw [hname] at hc
          simp only [List.mem_singleton] at hc
          subst hc
          exact ⟨hcu, hdecl.1, hdecl.2, rfl, rfl, rfl⟩
      · rw [if_neg henum, if_neg (by rintro ⟨hcon, -⟩; omega),
          if_neg (by omega)] at hc
        rcases hname : info.name with _ | nm
        · rw [hname] at hc; simp at hc
        · rw [hname] at hc
          simp only [List.mem_singleton] at hc
          subst hc
          exact ⟨hcu, hdecl.1, hdecl.2, rfl, rfl, rfl⟩
    · rw [if_neg hdecl] at hc; simp at hc

/-- At depth 1 an enumeration-type DIE (non-declaration, not the compile
unit) records its own offset. -/
theorem process_die_one_fst_enum (eo : Nat) (info : DieInfo)
    (henum : info.tag = DW_TAG_enumeration_type) (hdecl : info.decl = false) :
    (process_die 1 eo info).1 = info.offset := by
  unfold process_die
  rw [if_neg (by rw [henum]; decide),
    if_pos (by rw [henum]; exact ⟨by decide, hdecl⟩), if_pos ⟨rfl, henum⟩]

/-- At depth 2 and below the walk never changes the recorded enumeration
offset: only a depth-1 enumeration type sets it and only a return to
depth 1 clears it. -/
theorem walk_dies_fst_ge_two :
    ∀ (l : List DieTree) (d eo : Nat), 2 ≤ d →
      (walk_dies d eo l).1 = eo := by
  suffices h : ∀ (N : Nat) (l : List DieTree), sizeOf l ≤ N →
      ∀ (d eo : Nat), 2 ≤ d → (walk_dies d eo l).1 = eo from
    fun l => h (sizeOf l) l (Nat.le_refl _)
  intro N
  induction N with
  | zero =>
    intro l hl d eo hd
    cases l with
    | nil => rw [walk_dies_nil]
    | cons t rest => simp at hl
  | succ N ih =>
    intro l hl d eo hd
    cases l with
    | nil => rw [walk_dies_nil]
    | cons t rest =>
      obtain ⟨info, children⟩ := t
      have hsz : sizeOf children ≤ N ∧ sizeOf rest ≤ N := by
        simp at hl; omega
      have hp := process_die_fst d eo info (by omega)
      by_cases hdesc : children.isEmpty = false ∧ info.sibling = false
      · rw [walk_dies_fst_descend d eo info children rest hdesc]
        rw [if_neg (by omega), hp,
          ih children hsz.1 (d + 1) eo (by omega),
          ih rest hsz.2 d eo hd]
      · rw [walk_dies_fst_skip d eo info children rest hdesc, hp,
          ih rest hsz.2 d eo hd]

/-- At depth 3 and below the walk indexes nothing. -/
theorem walk_dies_snd_deep :
    ∀ (l : List DieTree) (d eo : Nat), 3 ≤ d →
      (walk_dies d eo l).2 = [] := by
  suffices h : ∀ (N : Nat) (l : List DieTree), sizeOf l ≤ N →
      ∀ (d eo : Nat), 3 ≤ d → (walk_dies d eo l).2 = [] from
    fun l => h (sizeOf l) l (Nat.le_refl _)
  intro N
  induction N with
  | zero =>
    intro l hl d eo hd
    cases l with
    | nil => rw [walk_dies_nil]
    | cons t rest => simp at hl
  | succ N ih =>
    intro l hl d eo hd
    cases l with
    | nil => rw [walk_dies_nil]
    | cons t rest =>
      obtain ⟨info, children⟩ := t
      have hsz : sizeOf children ≤ N ∧ sizeOf rest ≤ N := by
        simp at hl; omega
      have hp := process_die_snd_deep d eo info (by omega) (by omega)
      by_cases hdesc : children.isEmpty = false ∧ info.sibling = false
      · rw [walk_dies_snd_descend d eo info children rest hdesc, hp,
          ih children hsz.1 (d + 1) _ (by omega),
          ih rest hsz.2 d _ hd]
        rfl
      · rw [walk_dies_snd_skip d eo info children rest hdesc, hp,
          ih rest hsz.2 d _ hd]
        rfl

/-- The empty forest is well-formed. -/
theorem wf_die_forest_nil (pt : Nat) (pd : Bool) :
    wf_die_forest pt pd [] = true := by
  simp [wf_die_forest]

/-- Unfolding of forest well-formedness at a cons. -/
theorem wf_die_forest_cons (pt : Nat) (pd : Bool) (info : DieInfo)
    (children rest : List DieTree) :
    wf_die_forest pt pd (DieTree.mk info children :: rest) = true ↔
      ((info.tag = DW_TAG_enumerator →
        pt = DW_TAG_enumeration_type ∧ pd = false) ∧
       (info.tag = DW_TAG_enumeration_type → info.offset ≠ 0) ∧
       wf_die_forest info.tag info.decl children = true ∧
       wf_die_forest pt pd rest = true) := by
  rw [show wf_die_forest pt pd (DieTree.mk info children :: rest) =
      ((if info.tag = DW_TAG_enumerator then
          decide (pt = DW_TAG_enumeration_type ∧ pd = false) else true) &&
       (if info.tag = DW_TAG_enumeration_type then decide (info.offset ≠ 0)
        else true) &&
       wf_die_forest info.tag info.decl children &&
       wf_die_forest pt pd rest) from by simp only [wf_die_forest]]
  simp only [Bool.and_eq_true]
  constructor
  · rintro ⟨⟨⟨h1, h2⟩, h3⟩, h4⟩
    refine ⟨?_, ?_, h3, h4⟩
    · intro ht; rw [if_pos ht] at h1; simpa using h1
    · intro ht; rw [if_pos ht] at h2; simpa using h2
  · rintro ⟨h1, h2, h3, h4⟩
    refine ⟨⟨⟨?_, ?_⟩, h3⟩, h4⟩
    · by_cases ht : info.tag = DW_TAG_enumerator
      · rw [if_pos ht]; simpa using h1 ht
      · rw [if_neg ht]
    · by_cases ht : info.tag = DW_TAG_enumeration_type
      · rw [if_pos ht]; simpa using h2 ht
      · rw [if_neg ht]

/-- Every member of a well-formed forest satisfies the parent conditions
and roots a well-formed forest of its own children. -/
theorem wf_die_forest_mem :
    ∀ (l : List DieTree) (pt : Nat) (pd : Bool),
      wf_die_forest pt pd l = true → ∀ x ∈ l,
        (x.info.tag = DW_TAG_enumerator →
          pt = DW_TAG_enumeration_type ∧ pd = false) ∧
        (x.info.tag = DW_TAG_enumeration_type → x.info.offset ≠ 0) ∧
        wf_die_forest x.info.tag x.info.decl x.children = true := by
  intro l
  induction l with
  | nil => intro pt pd _ x hx; simp at hx
  | cons t rest ih =>
    intro pt pd h x hx
    obtain ⟨info, children⟩ := t
    rw [wf_die_forest_cons] at h
    rcases List.mem_cons.mp hx with rfl | hx
    · exact ⟨h.1, h.2.1, h.2.2.1⟩
    · exact ih pt pd h.2.2.2 x hx

/-- Any call collected by a walk at depth 2 is an enumerator child
indexed under the recorded (nonzero) enumeration offset, with the child's
name. -/
theorem walk_dies_two_mem :
    ∀ (l : List DieTree) (eo : Nat) (c : ICall),
      c ∈ (walk_dies 2 eo l).2 →
      ∃ x ∈ l, x.info.tag = DW_TAG_enumerator ∧ x.info.decl = false ∧
        x.info.name = some c.name ∧ c.tag = DW_TAG_enumerator ∧
        c.offset = eo ∧ eo ≠ 0 := by
  intro l
  induction l with
  | nil => intro eo c hc; rw [walk_dies_nil] at hc; simp at hc
  | cons t rest ih =>
    intro eo c hc
    obtain ⟨info, children⟩ := t
    have hpfst : (process_die 2 eo info).1 = eo :=
      process_die_fst 2 eo info (by omega)
    by_cases hdesc : children.isEmpty = false ∧ info.sibling = false
    · rw [walk_dies_snd_descend 2 eo info children rest hdesc, hpfst,
        walk_dies_snd_deep children (2 + 1) eo (by omega),
        if_neg (by omega),
        walk_dies_fst_ge_two children (2 + 1) eo (by omega)] at hc
      simp only [List.append_nil, List.mem_append] at hc
      rcases hc with hc | hc
      · obtain ⟨htag, hdecl2, hname, hctag, hcoff, heo⟩ :=
          process_die_two_mem eo info c hc
        exact ⟨DieTree.mk info children, List.mem_cons_self _ _, htag,
          hdecl2, hname, hctag, hcoff, heo⟩
      · obtain ⟨x, hx, hrest⟩ := ih eo c hc
        exact ⟨x, List.mem_cons_of_mem _ hx, hrest⟩
    · rw [walk_dies_snd_skip 2 eo info children rest hdesc, hpfst] at hc
      simp only [List.mem_append] at hc
      rcases hc with hc | hc
      · obtain ⟨htag, hdecl2, hname, hctag, hcoff, heo⟩ :=
          process_die_two_mem eo info c hc
        exact ⟨DieTree.mk info children, List.mem_cons_self _ _, htag,
          hdecl2, hname, hctag, hcoff, heo⟩
      · obtain ⟨x, hx, hrest⟩ := ih eo c hc
        exact ⟨x, List.mem_cons_of_mem _ hx, hrest⟩

/-- Any call collected by the depth-1 walk of a well-formed forest is
either an enumerator child of a top-level non-declaration enumeration
type, indexed under that enumeration's offset, or a top-level DIE
indexed under its own tag and offset. -/
theorem walk_dies_one_mem :
    ∀ (l : List DieTree) (eo : Nat) (c : ICall),
      wf_die_forest DW_TAG_compile_unit false l = true →
      c ∈ (walk_dies 1 eo l).2 →
      (c.tag = DW_TAG_enumerator →
        ∃ E ∈ l, E.info.tag = DW_TAG_enumeration_type ∧
          E.info.decl = false ∧ c.offset = E.info.offset ∧
          ∃ x ∈ E.children, x.info.tag = DW_TAG_enumerator ∧
            x.info.name = some c.name) ∧
      (c.tag ≠ DW_TAG_enumerator →
        ∃ t ∈ l, c.tag = t.info.tag ∧ c.offset = t.info.offset ∧
          t.info.name = some c.name ∧ t.info.decl = false) := by
  intro l
  induction l with
  | nil => intro eo c _ hc; rw [walk_dies_nil] at hc; simp at hc
  | cons t rest ih =>
    intro eo c hwf hc
    obtain ⟨info, children⟩ := t
    rw [wf_die_forest_cons] at hwf
    obtain ⟨hw1, hw2, hwc, hwr⟩ := hwf
    by_cases hdesc : children.isEmpty = false ∧ info.sibling = false
    · rw [walk_dies_snd_descend 1 eo info children rest hdesc,
        if_pos rfl] at hc
      simp only [List.mem_append] at hc
      rcases hc with (hc | hc) | hc
      · obtain ⟨hnotcu, hnot0, hdecl2, hname, hctag, hcoff⟩ :=
          process_die_one_mem eo info c hc
        constructor
        · intro henumc
          exact absurd (hw1 (hctag ▸ henumc)).1 (by decide)
        · intro _
          exact ⟨DieTree.mk info children, List.mem_cons_self _ _, hctag,
            hcoff, hname, hdecl2⟩
      · obtain ⟨x, hx, hxtag, hxdecl, hxname, hctag, hcoff, heo⟩ :=
          walk_dies_two_mem children ((process_die 1 eo info).1) c hc
        obtain ⟨hinfoenum, hinfodecl⟩ :=
          (wf_die_forest_mem children info.tag info.decl hwc x hx).1 hxtag
        have hfst : (process_die 1 eo info).1 = info.offset :=
          process_die_one_fst_enum eo info hinfoenum hinfodecl
        constructor
        · intro _
          refine ⟨DieTree.mk info children, List.mem_cons_self _ _,
            hinfoenum, hinfodecl, ?_, x, hx, hxtag, hxname⟩
          rw [hcoff, hfst]
          rfl
        · intro hne
          exact absurd hctag hne
      · obtain ⟨ih1, ih2⟩ := ih 0 c hwr hc
        constructor
        · intro h
          obtain ⟨E, hE, hprops⟩ := ih1 h
          exact ⟨E, List.mem_cons_of_mem _ hE, hprops⟩
        · intro h
          obtain ⟨t2, ht2, hprops⟩ := ih2 h
          exact ⟨t2, List.mem_cons_of_mem _ ht2, hprops⟩
    · rw [walk_dies_snd_skip 1 eo info children rest hdesc] at hc
      simp only [List.mem_append] at hc
      rcases hc with hc | hc
      · obtain ⟨hnotcu, hnot0, hdecl2, hname, hctag, hcoff⟩ :=
          process_die_one_mem eo info c hc
        constructor
        · intro henumc
          exact absurd (hw1 (hctag ▸ henumc)).1 (by decide)
        · intro _
          exact ⟨DieTree.mk info children, List.mem_cons_self _ _, hctag,
            hcoff, hname, hdecl2⟩
      · obtain ⟨ih1, ih2⟩ := ih ((process_die 1 eo info).1) c hwr hc
        constructor
        · intro h
          obtain ⟨E, hE, hprops⟩ := ih1 h
          exact ⟨E, List.mem_cons_of_mem _ hE, hprops⟩
        · intro h
          obtain ⟨t2, ht2, hprops⟩ := ih2 h
          exact ⟨t2, List.mem_cons_of_mem _ ht2, hprops⟩

/-- C7: on a well-formed compile unit, every DW_TAG_enumerator call the
walker passes to index_die comes from a depth-2 child of a depth-1
non-declaration enumeration-type DIE and carries the enclosing
enumeration's DIE offset rather than the enumerator's own, and every
other indexed definition is a depth-1 DIE indexed under its own tag and
offset — so nothing at any other depth is indexed. -/
theorem index_cu_enumerator_spec (roots : List DieTree)
    (hwf : wf_cu roots = true) (c : ICall)
    (hc : c ∈ index_cu_calls roots) :
    (c.tag = DW_TAG_enumerator →
      ∃ E ∈ roots, E.info.tag = DW_TAG_enumeration_type ∧
        E.info.decl = false ∧ c.offset = E.info.offset ∧
        ∃ x ∈ E.children, x.info.tag = DW_TAG_enumerator ∧
          x.info.name = some c.name) ∧
    (c.tag ≠ DW_TAG_enumerator →
      ∃ t ∈ roots, c.tag = t.info.tag ∧ c.offset = t.info.offset ∧
        t.info.name = some c.name ∧ t.info.decl = false) :=
  walk_dies_one_mem roots 0 c hwf hc

/-- Witness for C7: a compile unit with one enumeration type E at offset
7 holding one enumerator A at offset 9; the enumerator's index_die call
carries offset 7, the enumeration's. -/
theorem index_cu_enumerator_spec_witness :
    ((⟨['A'], 0x28, 7⟩ : ICall).tag = DW_TAG_enumerator →
      ∃ E ∈ ([DieTree.mk ⟨4, some ['E'], false, false, 7⟩
          [DieTree.mk ⟨0x28, some ['A'], false, false, 9⟩ []]] :
            List DieTree),
        E.info.tag = DW_TAG_enumeration_type ∧ E.info.decl = false ∧
        (⟨['A'], 0x28, 7⟩ : ICall).offset = E.info.offset ∧
        ∃ x ∈ E.children, x.info.tag = DW_TAG_enumerator ∧
          x.info.name = some (⟨['A'], 0x28, 7⟩ : ICall).name) ∧
    ((⟨['A'], 0x28, 7⟩ : ICall).tag ≠ DW_TAG_enumerator →
      ∃ t ∈ ([DieTree.mk ⟨4, some ['E'], false, false, 7⟩
          [DieTree.mk ⟨0x28, some ['A'], false, false, 9⟩ []]] :
            List DieTree),
        (⟨['A'], 0x28, 7⟩ : ICall).tag = t.info.tag ∧
        (⟨['A'], 0x28, 7⟩ : ICall).offset = t.info.offset ∧
        t.info.name = some (⟨['A'], 0x28, 7⟩ : ICall).name ∧
        t.info.decl = false) :=
  index_cu_enumerator_spec
    [DieTree.mk ⟨4, some ['E'], false, false, 7⟩
      [DieTree.mk ⟨0x28, some ['A'], false, false, 9⟩ []]]
    (by simp [wf_cu, wf_die_forest, DW_TAG_compile_unit,
      DW_TAG_enumeration_type, DW_TAG_enumerator])
    ⟨['A'], 0x28, 7⟩
    (by simp [index_cu_calls, walk_dies, process_die, DW_TAG_compile_unit,
      DW_TAG_enumeration_type, DW_TAG_enumerator])
